import Mathlib

/-!
# Candle-reconciliation core of the GoldRush-vs-Hyperliquid dashboard

Shallow embedding of the three algorithmic pieces of
`src/components/GoldRushHyperliquidUI.tsx`:

* the trade aggregator (`ws.onmessage` / `setHlCandles` updater),
* the candle merger (`rawQuery` `next` handler / `setGrCandles` updater),
* the reconciler (the metrics `useEffect`).

Prices, sizes and metric values are modelled as rationals (the source works on
JS numbers produced by `parseFloat` and arithmetic on small decimals); epoch
millisecond timestamps are modelled as integers.  Division on `Rat` is total
with `q / 0 = 0`; wherever the source can actually divide by zero (the
reconciler's `|closeA - closeB| / closeA`) this is called out at the theorem.
-/

namespace CandleRecon

/-- The source's `interface Candle`: OHLCV statistics of one time bucket.
`ts` is the bucket start in epoch ms.  The `open` field is spelled `open'`
because `open` is a Lean keyword. -/
structure Candle where
  ts : Int
  open' : Rat
  high : Rat
  low : Rat
  close : Rat
  volume : Rat
deriving DecidableEq, Repr

/-- A trade print after the numeric conversion the source applies
(`parseFloat(trade.px)`, `parseFloat(trade.sz)`); `time` is epoch ms. -/
structure Trade where
  time : Int
  px : Rat
  sz : Rat
deriving DecidableEq, Repr

/-- `Math.floor(trade.time / 60000) * 60000` of the source: the start of the
one-minute bucket containing an epoch-ms timestamp. -/
def bucketStart (t : Int) : Int := t.fdiv 60000 * 60000

/-- JS `Array.prototype.slice(-n)`: the last `n` elements (the whole list when
it is shorter than `n`). -/
def sliceLastN (n : Nat) (l : List α) : List α := l.drop (l.length - n)

/-- The candle created by the `else` branch of the `setHlCandles` updater:
`{ts, open: price, high: price, low: price, close: price, volume: size}`. -/
def freshCandle (ts : Int) (price size : Rat) : Candle :=
  { ts := ts, open' := price, high := price, low := price, close := price, volume := size }

/-- One `setHlCandles(prev => ...)` update for a single trade: if the tail
candle has the trade's bucket start, merge the trade into it in place;
otherwise append a fresh candle and keep the last 100 entries. -/
def ingestTrade (prev : List Candle) (tr : Trade) : List Candle :=
  let ts := bucketStart tr.time
  let price := tr.px
  let size := tr.sz
  match prev.getLast? with
  | some last =>
      if last.ts = ts then
        prev.dropLast ++
          [{ last with
              high := max last.high price
              low := min last.low price
              close := price
              volume := last.volume + size }]
      else
        sliceLastN 100 (prev ++ [freshCandle ts price size])
  | none => sliceLastN 100 (prev ++ [freshCandle ts price size])

/-- `newTrades.forEach(trade => setHlCandles(...))`: a trade batch is folded
left to right, one updater call per trade. -/
def ingestTrades (prev : List Candle) (trs : List Trade) : List Candle :=
  trs.foldl ingestTrade prev

/-- One iteration of the `candles.forEach` body inside the `setGrCandles`
updater, generic in the record type (the JS code is untyped): look up the
first entry with the incoming record's timestamp (`findIndex`), replace it
if found, push the record otherwise. -/
def mergeRecord (tsOf : α → Int) (acc : List α) (c : α) : List α :=
  match acc.findIdx? (fun nc => decide (tsOf nc = tsOf c)) with
  | some i => acc.set i c
  | none => acc ++ [c]

/-- `newCandles.sort((a, b) => a.ts - b.ts)`: a stable sort ascending by
timestamp (JS `Array.prototype.sort` is stable). -/
def sortByTs (tsOf : α → Int) (l : List α) : List α :=
  List.insertionSort (fun a b => tsOf a ≤ tsOf b) l

/-- The whole `setGrCandles(prev => ...)` updater body for a non-empty batch:
fold the batch through `mergeRecord`, sort by timestamp, keep the last 100. -/
def ingestBatchCore (tsOf : α → Int) (prev batch : List α) : List α :=
  sliceLastN 100 (sortByTs tsOf (batch.foldl (mergeRecord tsOf) prev))

/-- Effect of one GoldRush message on `grCandles`: the handler only calls
`setGrCandles` when `Array.isArray(candles) && candles.length > 0`; an empty
batch leaves the series unchanged (and only logs a diagnostic). -/
def ingestGR (prev batch : List Candle) : List Candle :=
  if batch.isEmpty then prev else ingestBatchCore Candle.ts prev batch

/-- The `metrics` state object: `{matchedPct, meanPriceBps, avgLatencyDiffMs}`. -/
structure Metrics where
  matchedPct : Rat
  meanPriceBps : Rat
  avgLatencyDiffMs : Rat
deriving DecidableEq, Repr

/-- JS `Math.round`: round half toward positive infinity. -/
def jsRound (q : Rat) : Rat := ((⌊q + 1 / 2⌋ : Int) : Rat)

/-- Accumulator of the metrics `useEffect` loop: the source's `matches`
(spelled `matchHits` here, `matches` being a Lean keyword), `priceDiffSum`
and `count` (kept as rationals, as all three are JS numbers). -/
structure ReconAcc where
  matchHits : Rat
  priceDiffSum : Rat
  count : Rat
deriving DecidableEq, Repr

/-- One iteration of `hlCandles.forEach` in the metrics effect: find a
GoldRush candle with the same `ts`; on a match increment `matches`, add
`|hl.close - gr.close| / hl.close` to the sum and increment `count`.
The division is total here (`q / 0 = 0`); in JS a zero `hl.close` yields a
non-finite quotient instead — there is no zero guard in the source. -/
def reconStep (grCandles : List Candle) (acc : ReconAcc) (hl : Candle) : ReconAcc :=
  match grCandles.find? (fun c => decide (c.ts = hl.ts)) with
  | some gr =>
      { matchHits := acc.matchHits + 1
        priceDiffSum := acc.priceDiffSum + |hl.close - gr.close| / hl.close
        count := acc.count + 1 }
  | none => acc

/-- The accumulator after the whole `hlCandles.forEach` loop. -/
def reconAcc (hlCandles grCandles : List Candle) : ReconAcc :=
  hlCandles.foldl (reconStep grCandles) ⟨0, 0, 0⟩

/-- Effect of the metrics `useEffect` on `metrics`: when either series is
empty the effect returns early and the previous metrics are kept; otherwise
`matchedPct = count > 0 ? Math.round(matches / hlCandles.length * 100) : 0`,
`meanPriceBps = count > 0 ? priceDiffSum / count * 10000 : 0`, and
`avgLatencyDiffMs` is written as the literal 0. -/
def computeStep (hlCandles grCandles : List Candle) (m : Metrics) : Metrics :=
  if hlCandles.length = 0 ∨ grCandles.length = 0 then m
  else
    let a := reconAcc hlCandles grCandles
    { matchedPct := if 0 < a.count then jsRound (a.matchHits / (hlCandles.length : Rat) * 100) else 0
      meanPriceBps := if 0 < a.count then a.priceDiffSum / a.count * 10000 else 0
      avgLatencyDiffMs := 0 }

/-- An external message handled by the component: a Hyperliquid trades
message or a GoldRush candle batch. -/
inductive Event where
  | tradesMsg (trades : List Trade)
  | grBatch (batch : List Candle)

/-- The component state the claims are about: the two candle series and the
metrics object. -/
structure SysState where
  hlCandles : List Candle
  grCandles : List Candle
  metrics : Metrics
deriving DecidableEq

/-- Initial state: both series empty, metrics zeroed (the `useState`
initializers). -/
def initState : SysState := ⟨[], [], ⟨0, 0, 0⟩⟩

/-- One message: update the affected series, then recompute metrics (the
metrics `useEffect` re-runs whenever either series changes). -/
def step (s : SysState) (e : Event) : SysState :=
  match e with
  | .tradesMsg trs =>
      let hl := ingestTrades s.hlCandles trs
      { hlCandles := hl, grCandles := s.grCandles
        metrics := computeStep hl s.grCandles s.metrics }
  | .grBatch b =>
      let gr := ingestGR s.grCandles b
      { hlCandles := s.hlCandles, grCandles := gr
        metrics := computeStep s.hlCandles gr s.metrics }

/-- The state reached after a sequence of messages from the initial state. -/
def run (es : List Event) : SysState := es.foldl step initState

/-- Reference definition following the spec's words: the number of `seriesA`
candles with a same-`bucketStart` counterpart in `seriesB`. -/
def specMatchCount (a b : List Candle) : Nat :=
  (a.filter (fun c => (b.find? (fun g => decide (g.ts = c.ts))).isSome)).length

/-- Reference definition following the spec's words:
`matchedFraction = matchCount / |seriesA|`. -/
def specMatchedFraction (a b : List Candle) : Rat :=
  (specMatchCount a b : Rat) / (a.length : Rat)

/-- Reference definition following the spec's words: the accumulated
`|closeA - closeB| / closeA` over matched buckets. -/
def specDevSum (a b : List Candle) : Rat :=
  (a.map (fun c =>
    match b.find? (fun g => decide (g.ts = c.ts)) with
    | some g => |c.close - g.close| / c.close
    | none => 0)).sum

/-- Reference definition following the spec's words:
`meanPriceDeviationBps = 10000 * (sum / matchCount)` when `matchCount > 0`,
else 0. -/
def specMeanBps (a b : List Candle) : Rat :=
  if 0 < specMatchCount a b then 10000 * (specDevSum a b / (specMatchCount a b : Rat)) else 0

/-- A raw GoldRush record as the untyped `next` handler sees it: `timestamp`
already converted to epoch ms by `new Date(...).getTime()`, the five numeric
fields copied verbatim; `none` models a missing (`undefined`) or non-finite
field value.  The handler performs no validation on these fields. -/
structure RawCandle where
  timestamp : Int
  rawOpen : Option Rat
  rawHigh : Option Rat
  rawLow : Option Rat
  rawClose : Option Rat
  rawVolume : Option Rat
deriving DecidableEq, Repr

/-- The object literal the handler builds from a raw record: every field is
copied verbatim, malformed or not. -/
structure JsCandle where
  ts : Int
  jsOpen : Option Rat
  jsHigh : Option Rat
  jsLow : Option Rat
  jsClose : Option Rat
  jsVolume : Option Rat
deriving DecidableEq, Repr

/-- The verbatim field copy `const candle: Candle = {ts, open: c.open, ...}`. -/
def toJsCandle (c : RawCandle) : JsCandle :=
  ⟨c.timestamp, c.rawOpen, c.rawHigh, c.rawLow, c.rawClose, c.rawVolume⟩

/-- The `next` handler's effect on `grCandles` at the untyped level: an empty
batch leaves the series unchanged; a non-empty batch is merged record by
record with no per-record validation. -/
def ingestGRRaw (prev : List JsCandle) (batch : List RawCandle) : List JsCandle :=
  if batch.isEmpty then prev else ingestBatchCore JsCandle.ts prev (batch.map toJsCandle)

/-- Proof-side recursive form of `mergeRecord`: replace the first entry whose
timestamp matches, else append. -/
def replaceOrAppend (tsOf : α → Int) : List α → α → List α
  | [], c => [c]
  | x :: xs, c => if tsOf x = tsOf c then c :: xs else x :: replaceOrAppend tsOf xs c

/-- The last record of `l` whose timestamp is `t`, if any. -/
def lastWithTs (tsOf : α → Int) (t : Int) : List α → Option α
  | [] => none
  | c :: rest =>
      if tsOf c = t then some ((lastWithTs tsOf t rest).getD c) else lastWithTs tsOf t rest

/-- The last record of `batch` sharing `c`'s timestamp, defaulting to `c`. -/
def lastD (tsOf : α → Int) (batch : List α) (c : α) : α :=
  (lastWithTs tsOf (tsOf c) batch).getD c

/-- The records a batch appends beyond the timestamps in `seen`: first
occurrence order, each valued at its last occurrence. -/
def newRecords (tsOf : α → Int) : List Int → List α → List α
  | _, [] => []
  | seen, c :: rest =>
      if tsOf c ∈ seen then newRecords tsOf seen rest
      else lastD tsOf (c :: rest) c :: newRecords tsOf (tsOf c :: seen) rest

/-- A series has pairwise-distinct timestamps (true of every reachable
`grCandles` state). -/
def UniqTs (tsOf : α → Int) (l : List α) : Prop := (l.map tsOf).Nodup

/-- The in-place update of the tail candle performed by the `if` branch of the
`setHlCandles` updater. -/
def mergeInto (c : Candle) (tr : Trade) : Candle :=
  { c with
      high := max c.high tr.px
      low := min c.low tr.px
      close := tr.px
      volume := c.volume + tr.sz }

/-- Relation between a reachable state's metrics and the two series: metrics
are still zeroed while either series is empty, and otherwise agree with the
reference reconciler up to the source's percent rounding. -/
def goodState (s : SysState) : Prop :=
  (s.hlCandles = [] ∨ s.grCandles = [] → s.metrics = ⟨0, 0, 0⟩) ∧
  (s.hlCandles ≠ [] → s.grCandles ≠ [] →
    s.metrics = ⟨jsRound (100 * specMatchedFraction s.hlCandles s.grCandles),
      specMeanBps s.hlCandles s.grCandles, 0⟩)

/-- The candle invariant stated by the spec's data model. -/
def WFCandle (c : Candle) : Prop :=
  c.low ≤ c.open' ∧ c.open' ≤ c.high ∧ c.low ≤ c.close ∧ c.close ≤ c.high ∧
    0 ≤ c.volume ∧ c.ts % 60000 = 0

/-! ## Basic lemmas about slicing and the trade aggregator -/

theorem sliceLastN_suffix (n : Nat) (l : List α) : sliceLastN n l <:+ l :=
  ⟨l.take (l.length - n), List.take_append_drop _ l⟩

theorem sliceLastN_subset (n : Nat) (l : List α) : sliceLastN n l ⊆ l :=
  ((sliceLastN_suffix n l).sublist).subset

theorem sliceLastN_eq_self {n : Nat} {l : List α} (h : l.length ≤ n) :
    sliceLastN n l = l := by
  unfold sliceLastN
  have : l.length - n = 0 := by omega
  rw [this, List.drop_zero]

theorem length_sliceLastN (n : Nat) (l : List α) :
    (sliceLastN n l).length = l.length - (l.length - n) := by
  unfold sliceLastN
  rw [List.length_drop]

theorem sliceLastN_ne_nil {n : Nat} {l : List α} (hn : 0 < n) (hl : l ≠ []) :
    sliceLastN n l ≠ [] := by
  have hlen : 0 < l.length := List.length_pos.mpr hl
  intro h
  have := congrArg List.length h
  rw [length_sliceLastN] at this
  simp at this
  omega

theorem sliceLastN_append_right {n : Nat} {l₁ l₂ : List α} (h : l₂.length = n) :
    sliceLastN n (l₁ ++ l₂) = l₂ := by
  unfold sliceLastN
  rw [List.length_append, h]
  have : l₁.length + n - n = l₁.length := by omega
  rw [this, List.drop_left]

theorem ingestTrade_ne_nil (s : List Candle) (tr : Trade) : ingestTrade s tr ≠ [] := by
  unfold ingestTrade
  cases h : s.getLast? with
  | none =>
      simp only
      exact sliceLastN_ne_nil (by omega) (by simp)
  | some last =>
      simp only
      split
      · simp
      · exact sliceLastN_ne_nil (by omega) (by simp)

theorem ingestTrades_eq_nil {s : List Candle} {trs : List Trade}
    (h : ingestTrades s trs = []) : s = [] := by
  induction trs generalizing s with
  | nil => exact h
  | cons t rest ih =>
      exact absurd (ih h) (ingestTrade_ne_nil s t)

/-- Merging a trade into a matching tail candle. -/
theorem ingestTrade_update {s : List Candle} {c : Candle} (tr : Trade)
    (hlast : s.getLast? = some c) (hts : c.ts = bucketStart tr.time) :
    ingestTrade s tr = s.dropLast ++ [mergeInto c tr] := by
  unfold ingestTrade
  rw [hlast]
  simp only [if_pos hts]
  rfl

/-- A trade whose bucket differs from the tail appends a fresh candle. -/
theorem ingestTrade_append {s : List Candle} {c : Candle} (tr : Trade)
    (hlast : s.getLast? = some c) (hts : c.ts ≠ bucketStart tr.time) :
    ingestTrade s tr = sliceLastN 100 (s ++ [freshCandle (bucketStart tr.time) tr.px tr.sz]) := by
  unfold ingestTrade
  rw [hlast]
  simp only [if_neg hts]

theorem ingestTrade_empty (tr : Trade) :
    ingestTrade [] tr = [freshCandle (bucketStart tr.time) tr.px tr.sz] := by
  unfold ingestTrade
  simp [sliceLastN]

/-! ## C10: the latency metric is never computed -/

theorem computeStep_latency (hl gr : List Candle) (m : Metrics)
    (h : m.avgLatencyDiffMs = 0) : (computeStep hl gr m).avgLatencyDiffMs = 0 := by
  unfold computeStep
  split
  · exact h
  · rfl

theorem foldl_step_latency (es : List Event) (s : SysState)
    (h : s.metrics.avgLatencyDiffMs = 0) :
    (es.foldl step s).metrics.avgLatencyDiffMs = 0 := by
  induction es generalizing s with
  | nil => exact h
  | cons e rest ih =>
      cases e with
      | tradesMsg trs => exact ih _ (computeStep_latency _ _ _ h)
      | grBatch b => exact ih _ (computeStep_latency _ _ _ h)

/-- C10: in every reachable state the metrics object's third field
`avgLatencyDiffMs` equals 0 — it starts at 0 and every recomputation writes
the literal 0, so the latency-difference metric is never computed from the
data. -/
theorem claim_C10_avg_latency_always_zero :
    initState.metrics.avgLatencyDiffMs = 0 ∧
      ∀ es : List Event, (run es).metrics.avgLatencyDiffMs = 0 :=
  ⟨rfl, fun es => foldl_step_latency es initState rfl⟩

/-! ## C7: candle well-formedness invariant -/

theorem WF_freshCandle {px sz : Rat} (t : Int) (hsz : 0 ≤ sz) :
    WFCandle (freshCandle (bucketStart t) px sz) := by
  refine ⟨le_refl _, le_refl _, le_refl _, le_refl _, hsz, ?_⟩
  exact Int.mul_emod_left _ _

theorem WF_mergeInto {c : Candle} {tr : Trade} (hc : WFCandle c) (hsz : 0 ≤ tr.sz) :
    WFCandle (mergeInto c tr) := by
  obtain ⟨h1, h2, _, _, h5, h6⟩ := hc
  refine ⟨?_, ?_, ?_, ?_, ?_, h6⟩
  · exact le_trans (min_le_left _ _) h1
  · exact le_trans h2 (le_max_left _ _)
  · exact min_le_right _ _
  · exact le_max_right _ _
  · exact add_nonneg h5 hsz

theorem ingestTrade_WF {s : List Candle} {tr : Trade}
    (hs : ∀ c ∈ s, WFCandle c) (hsz : 0 ≤ tr.sz) :
    ∀ c ∈ ingestTrade s tr, WFCandle c := by
  intro c hc
  cases h : s.getLast? with
  | none =>
      rw [List.getLast?_eq_none_iff.mp h] at hs hc
      rw [ingestTrade_empty] at hc
      have : c = freshCandle (bucketStart tr.time) tr.px tr.sz := by simpa using hc
      rw [this]
      exact WF_freshCandle _ hsz
  | some last =>
      have hlast : last ∈ s := by
        have := List.dropLast_append_getLast? last h
        rw [← this]
        simp
      by_cases hts : last.ts = bucketStart tr.time
      · rw [ingestTrade_update tr h hts] at hc
        rcases List.mem_append.mp hc with hc' | hc'
        · exact hs c (List.dropLast_subset _ hc')
        · have : c = mergeInto last tr := by simpa using hc'
          rw [this]
          exact WF_mergeInto (hs last hlast) hsz
      · rw [ingestTrade_append tr h hts] at hc
        rcases List.mem_append.mp (sliceLastN_subset _ _ hc) with hc' | hc'
        · exact hs c hc'
        · have : c = freshCandle (bucketStart tr.time) tr.px tr.sz := by simpa using hc'
          rw [this]
          exact WF_freshCandle _ hsz

theorem ingestTrades_WF {s : List Candle} {trs : List Trade}
    (hs : ∀ c ∈ s, WFCandle c) (htr : ∀ t ∈ trs, 0 < t.px ∧ 0 ≤ t.sz) :
    ∀ c ∈ ingestTrades s trs, WFCandle c := by
  induction trs generalizing s with
  | nil => exact hs
  | cons t rest ih =>
      exact ih (ingestTrade_WF hs (htr t (by simp)).2)
        (fun t' ht' => htr t' (by simp [ht']))

/-- C7: for trades with positive price and non-negative size, every candle the
trade aggregator produces satisfies `low ≤ open ≤ high`, `low ≤ close ≤ high`,
`volume ≥ 0`, and has a `ts` that is an exact multiple of 60000 ms; every
single `ingest` preserves this invariant. -/
theorem claim_C7_candle_invariants :
    (∀ (s : List Candle) (tr : Trade), (∀ c ∈ s, WFCandle c) → 0 < tr.px → 0 ≤ tr.sz →
      ∀ c ∈ ingestTrade s tr, WFCandle c) ∧
    (∀ trs : List Trade, (∀ t ∈ trs, 0 < t.px ∧ 0 ≤ t.sz) →
      ∀ c ∈ ingestTrades [] trs, WFCandle c) :=
  ⟨fun _ _ hs _ hsz => ingestTrade_WF hs hsz,
   fun _ htr => ingestTrades_WF (by simp) htr⟩

/-- Witness for C7 at a concrete trade sequence. -/
theorem claim_C7_witness :
    (∀ t ∈ [(⟨1000, 5, 1⟩ : Trade), ⟨61000, 7, 2⟩], 0 < t.px ∧ 0 ≤ t.sz) ∧
      ∀ c ∈ ingestTrades [] [(⟨1000, 5, 1⟩ : Trade), ⟨61000, 7, 2⟩], WFCandle c :=
  ⟨by decide, claim_C7_candle_invariants.2 _ (by decide)⟩

/-! ## C5: late / out-of-order trades -/

/-- C5 (amended): a trade whose bucket start is strictly before the tail
candle's is not dropped — the series changes: a fresh candle for the earlier
bucket is appended after the tail (followed by the keep-last-100 truncation);
it is never merged into any earlier candle. -/
theorem claim_C5_late_trade_appends (s : List Candle) (tr : Trade) (c : Candle)
    (hlast : s.getLast? = some c) (hlate : bucketStart tr.time < c.ts) :
    ingestTrade s tr =
      sliceLastN 100 (s ++ [freshCandle (bucketStart tr.time) tr.px tr.sz]) :=
  ingestTrade_append tr hlast (ne_of_gt hlate)

/-- Counterexample to C5 as stated: ingesting a late trade (bucket 0, behind
the tail bucket 60000) does not leave the series unchanged — a new candle for
the earlier bucket is appended. -/
theorem claim_C5_counterexample :
    ingestTrade [⟨60000, 1, 1, 1, 1, 1⟩] ⟨1000, 2, 1⟩ =
      [⟨60000, 1, 1, 1, 1, 1⟩, ⟨0, 2, 2, 2, 2, 1⟩] ∧
    ingestTrade [⟨60000, 1, 1, 1, 1, 1⟩] ⟨1000, 2, 1⟩ ≠ [⟨60000, 1, 1, 1, 1, 1⟩] := by
  decide

/-- Witness for the amended C5 at a concrete late trade. -/
theorem claim_C5_witness :
    ([(⟨60000, 1, 1, 1, 1, 1⟩ : Candle)].getLast? = some ⟨60000, 1, 1, 1, 1, 1⟩) ∧
    bucketStart 1000 < (60000 : Int) ∧
    ingestTrade [⟨60000, 1, 1, 1, 1, 1⟩] ⟨1000, 2, 1⟩ =
      sliceLastN 100 ([⟨60000, 1, 1, 1, 1, 1⟩] ++ [freshCandle (bucketStart 1000) 2 1]) :=
  ⟨by decide, by decide,
    claim_C5_late_trade_appends _ ⟨1000, 2, 1⟩ ⟨60000, 1, 1, 1, 1, 1⟩ (by decide) (by decide)⟩

/-! ## C1: aggregation of same-bucket trades -/

theorem getLast?_sliceLastN {n : Nat} {l : List α} (hn : 0 < n) (hl : l ≠ []) :
    (sliceLastN n l).getLast? = l.getLast? := by
  have hlen : 0 < l.length := List.length_pos_of_ne_nil hl
  have hne : l.drop (l.length - n) ≠ [] := by
    rw [ne_eq, List.drop_eq_nil_iff]
    omega
  conv_rhs => rw [← List.take_append_drop (l.length - n) l]
  rw [List.getLast?_append_of_ne_nil _ hne]
  rfl

theorem foldl_mergeInto_ts (trs : List Trade) (c : Candle) :
    (trs.foldl mergeInto c).ts = c.ts := by
  induction trs generalizing c with
  | nil => rfl
  | cons t rest ih => rw [List.foldl_cons, ih]; rfl

theorem foldl_mergeInto_open (trs : List Trade) (c : Candle) :
    (trs.foldl mergeInto c).open' = c.open' := by
  induction trs generalizing c with
  | nil => rfl
  | cons t rest ih => rw [List.foldl_cons, ih]; rfl

theorem foldl_mergeInto_high (trs : List Trade) (c : Candle) :
    (trs.foldl mergeInto c).high = trs.foldl (fun m t => max m t.px) c.high := by
  induction trs generalizing c with
  | nil => rfl
  | cons t rest ih => rw [List.foldl_cons, ih]; rfl

theorem foldl_mergeInto_low (trs : List Trade) (c : Candle) :
    (trs.foldl mergeInto c).low = trs.foldl (fun m t => min m t.px) c.low := by
  induction trs generalizing c with
  | nil => rfl
  | cons t rest ih => rw [List.foldl_cons, ih]; rfl

theorem foldl_mergeInto_close (trs : List Trade) (c : Candle) :
    (trs.foldl mergeInto c).close = (trs.map Trade.px).getLastD c.close := by
  induction trs generalizing c with
  | nil => rfl
  | cons t rest ih =>
      rw [List.foldl_cons, ih, List.map_cons, List.getLastD_cons]
      rfl

theorem foldl_mergeInto_volume (trs : List Trade) (c : Candle) :
    (trs.foldl mergeInto c).volume = c.volume + (trs.map Trade.sz).sum := by
  induction trs generalizing c with
  | nil => simp
  | cons t rest ih =>
      rw [List.foldl_cons, ih, List.map_cons, List.sum_cons]
      simp only [mergeInto]
      ring

/-- After the series tail sits in bucket `b`, a run of bucket-`b` trades keeps
merging into that tail. -/
theorem ingestTrades_merge_run {trs : List Trade} {s : List Candle} {c : Candle}
    (hlast : s.getLast? = some c) (hb : ∀ t ∈ trs, bucketStart t.time = c.ts) :
    (ingestTrades s trs).getLast? = some (trs.foldl mergeInto c) := by
  induction trs generalizing s c with
  | nil => exact hlast
  | cons t rest ih =>
      have hts : c.ts = bucketStart t.time := (hb t (by simp)).symm
      have hstep : ingestTrade s t = s.dropLast ++ [mergeInto c t] :=
        ingestTrade_update t hlast hts
      have hlast' : (ingestTrade s t).getLast? = some (mergeInto c t) := by
        rw [hstep]; exact List.getLast?_concat _
      have hb' : ∀ t' ∈ rest, bucketStart t'.time = (mergeInto c t).ts := by
        intro t' ht'
        exact hb t' (by simp [ht'])
      exact ih hlast' hb'

/-- C1 (amended): for a non-empty run of trades in one common bucket `b`,
ingested into a series that is empty or whose tail candle is in a different
bucket, the resulting tail candle has `open` = first trade's price,
`high`/`low` = max/min of the prices, `close` = last price, `volume` = sum of
the sizes; and the spec's concrete three-trade scenario produces exactly its
two predicted candles.  (As literally stated the claim also covered a tail
already in bucket `b`, where the existing tail state survives — see the
counterexample.) -/
theorem claim_C1_same_bucket_aggregation (prev : List Candle) (t0 : Trade)
    (rest : List Trade) (b : Int) (hb0 : bucketStart t0.time = b)
    (hrest : ∀ t ∈ rest, bucketStart t.time = b)
    (_hpos : ∀ t ∈ t0 :: rest, 0 < t.px ∧ 0 < t.sz)
    (htail : ∀ c, prev.getLast? = some c → c.ts ≠ b) :
    (ingestTrades prev (t0 :: rest)).getLast? =
      some { ts := b
             open' := t0.px
             high := rest.foldl (fun m t => max m t.px) t0.px
             low := rest.foldl (fun m t => min m t.px) t0.px
             close := (rest.map Trade.px).getLastD t0.px
             volume := t0.sz + (rest.map Trade.sz).sum } ∧
    ingestTrades [] [⟨1000, 5, 1⟩, ⟨2000, 6, 2⟩, ⟨61000, 7, 1⟩] =
      [⟨0, 5, 6, 5, 6, 3⟩, ⟨60000, 7, 7, 7, 7, 1⟩] := by
  constructor
  · have hfresh : (ingestTrade prev t0).getLast? =
        some (freshCandle b t0.px t0.sz) := by
      cases h : prev.getLast? with
      | none =>
          rw [List.getLast?_eq_none_iff.mp h, ingestTrade_empty, hb0]
          rfl
      | some c =>
          rw [ingestTrade_append t0 h (by rw [hb0]; exact htail c h),
            getLast?_sliceLastN (by omega) (by simp), hb0]
          exact List.getLast?_concat _
    have hrun := ingestTrades_merge_run hfresh
      (by intro t ht; rw [hrest t ht]; rfl)
    show (ingestTrades (ingestTrade prev t0) rest).getLast? = _
    rw [hrun]
    congr 1
    have hts := foldl_mergeInto_ts rest (freshCandle b t0.px t0.sz)
    have hopen := foldl_mergeInto_open rest (freshCandle b t0.px t0.sz)
    have hhigh := foldl_mergeInto_high rest (freshCandle b t0.px t0.sz)
    have hlow := foldl_mergeInto_low rest (freshCandle b t0.px t0.sz)
    have hclose := foldl_mergeInto_close rest (freshCandle b t0.px t0.sz)
    have hvol := foldl_mergeInto_volume rest (freshCandle b t0.px t0.sz)
    cases hfold : rest.foldl mergeInto (freshCandle b t0.px t0.sz)
    rw [hfold] at hts hopen hhigh hlow hclose hvol
    simp only [freshCandle] at hts hopen hhigh hlow hclose hvol
    simp_all
  · have h1 : Int.fdiv 1000 60000 = 0 := by decide
    have h2 : Int.fdiv 2000 60000 = 0 := by decide
    have h3 : Int.fdiv 61000 60000 = 1 := by decide
    norm_num [ingestTrades, ingestTrade, bucketStart, freshCandle, mergeInto, sliceLastN,
      h1, h2, h3]

/-- Counterexample to C1 as stated: the trade `{t:1000, px:5, sz:1}` has the
same bucket start (0) as the series' tail candle, yet the resulting tail keeps
the pre-existing `open = 1` and aggregates the old high/low/volume — it is not
the candle `{open:5, high:5, low:5, close:5, volume:1}` the claim predicts
from the trade list alone. -/
theorem claim_C1_counterexample :
    bucketStart 1000 = (0 : Int) ∧
    ([(⟨0, 1, 1, 1, 1, 1⟩ : Candle)].getLast? = some ⟨0, 1, 1, 1, 1, 1⟩) ∧
    ingestTrades [⟨0, 1, 1, 1, 1, 1⟩] [⟨1000, 5, 1⟩] = [⟨0, 1, 5, 1, 5, 2⟩] ∧
    (⟨0, 1, 5, 1, 5, 2⟩ : Candle) ≠ ⟨0, 5, 5, 5, 5, 1⟩ := by
  refine ⟨by decide, by decide, ?_, by decide⟩
  have h1 : Int.fdiv 1000 60000 = 0 := by decide
  norm_num [ingestTrades, ingestTrade, bucketStart, freshCandle, mergeInto, sliceLastN, h1]

/-- Witness for the amended C1 at the spec's first two scenario trades. -/
theorem claim_C1_witness :
    bucketStart 1000 = (0 : Int) ∧ bucketStart 2000 = (0 : Int) ∧
    (ingestTrades [] [⟨1000, 5, 1⟩, ⟨2000, 6, 2⟩]).getLast? =
      some { ts := 0
             open' := 5
             high := [(⟨2000, 6, 2⟩ : Trade)].foldl (fun m t => max m t.px) 5
             low := [(⟨2000, 6, 2⟩ : Trade)].foldl (fun m t => min m t.px) 5
             close := ([(⟨2000, 6, 2⟩ : Trade)].map Trade.px).getLastD 5
             volume := 1 + ([(⟨2000, 6, 2⟩ : Trade)].map Trade.sz).sum } :=
  ⟨by decide, by decide,
    (claim_C1_same_bucket_aggregation [] ⟨1000, 5, 1⟩ [⟨2000, 6, 2⟩] 0
      (by decide) (by decide) (by decide) (by intro c hc; simp at hc)).1⟩

/-! ## Reconciler: code loop versus the spec's reference definitions -/

theorem foldl_reconStep (gr hl : List Candle) (acc : ReconAcc) :
    hl.foldl (reconStep gr) acc =
      ⟨acc.matchHits + specMatchCount hl gr, acc.priceDiffSum + specDevSum hl gr,
        acc.count + specMatchCount hl gr⟩ := by
  induction hl generalizing acc with
  | nil =>
      cases acc
      simp [specMatchCount, specDevSum]
  | cons c rest ih =>
      rw [List.foldl_cons, ih]
      cases h : gr.find? (fun g => decide (g.ts = c.ts)) with
      | none =>
          have hmc : specMatchCount (c :: rest) gr = specMatchCount rest gr := by
            unfold specMatchCount
            rw [List.filter_cons, h]
            simp
          have hds : specDevSum (c :: rest) gr = specDevSum rest gr := by
            unfold specDevSum
            rw [List.map_cons, List.sum_cons, h]
            simp
          simp only [reconStep, h]
          rw [hmc, hds]
      | some g =>
          have hmc : specMatchCount (c :: rest) gr = specMatchCount rest gr + 1 := by
            unfold specMatchCount
            rw [List.filter_cons, h]
            simp
          have hds : specDevSum (c :: rest) gr =
              |c.close - g.close| / c.close + specDevSum rest gr := by
            unfold specDevSum
            rw [List.map_cons, List.sum_cons, h]
          simp only [reconStep, h]
          rw [hmc, hds]
          simp only [ReconAcc.mk.injEq]
          refine ⟨?_, ?_, ?_⟩
          · push_cast
            ring
          · ring
          · push_cast
            ring

theorem reconAcc_eq (hl gr : List Candle) :
    reconAcc hl gr =
      ⟨(specMatchCount hl gr : Rat), specDevSum hl gr, (specMatchCount hl gr : Rat)⟩ := by
  unfold reconAcc
  rw [foldl_reconStep]
  simp

/-- C4 (amended): the reconciler applies no zero-close guard — every matched
bucket, a zero-`close` one included, increments the deviation divisor `count`
exactly as it increments `matches`, and the deviation term is the unguarded
quotient `|closeA - closeB| / closeA` (non-finite in JS float semantics when
`closeA = 0`; total division is used in this rational model). -/
theorem claim_C4_zero_close_counted :
    (∀ hl gr : List Candle, (reconAcc hl gr).count = (reconAcc hl gr).matchHits) ∧
    (∀ hl gr : List Candle, (reconAcc hl gr).count = (specMatchCount hl gr : Rat)) :=
  ⟨fun hl gr => by rw [reconAcc_eq], fun hl gr => by rw [reconAcc_eq]⟩

/-- Counterexample to C4 as stated: with a matched bucket whose series-A close
is 0, the code still counts that bucket in the deviation divisor, so the mean
is 5000 bps rather than the 10000 bps that skip-semantics would give (and in
JS the accumulated sum is non-finite, not a skipped term). -/
theorem claim_C4_counterexample :
    computeStep [⟨0, 0, 0, 0, 0, 1⟩, ⟨60000, 10, 10, 10, 10, 1⟩]
        [⟨0, 5, 5, 5, 5, 1⟩, ⟨60000, 20, 20, 20, 20, 1⟩] ⟨0, 0, 0⟩ =
      ⟨100, 5000, 0⟩ ∧ (5000 : Rat) ≠ 10000 := by
  constructor
  · norm_num [computeStep, reconAcc, reconStep, List.find?, jsRound]
  · norm_num

theorem computeStep_char {hl gr : List Candle} (m : Metrics) (hhl : hl ≠ [])
    (hgr : gr ≠ []) :
    computeStep hl gr m =
      ⟨jsRound (100 * specMatchedFraction hl gr), specMeanBps hl gr, 0⟩ := by
  unfold computeStep
  rw [if_neg (by simp [hhl, hgr])]
  rw [reconAcc_eq]
  by_cases hM : 0 < specMatchCount hl gr
  · have hM' : (0 : Rat) < specMatchCount hl gr := by exact_mod_cast hM
    simp only [if_pos hM']
    rw [specMeanBps, if_pos hM, specMatchedFraction]
    congr 1
    · ring_nf
    · ring
  · have h0 : specMatchCount hl gr = 0 := by omega
    have hM' : ¬ (0 : Rat) < (specMatchCount hl gr : Rat) := by
      rw [h0]; norm_num
    simp only [if_neg hM']
    rw [specMeanBps, if_neg hM, specMatchedFraction, h0]
    congr 1
    norm_num [jsRound]

theorem mergeRecord_ne_nil (tsOf : α → Int) (acc : List α) (c : α) :
    mergeRecord tsOf acc c ≠ [] := by
  unfold mergeRecord
  cases acc with
  | nil => simp [List.findIdx?_nil]
  | cons x xs =>
      cases h : (x :: xs).findIdx? (fun nc => decide (tsOf nc = tsOf c)) with
      | none => simp
      | some i =>
          simp only
          intro habs
          have := congrArg List.length habs
          simp at this

theorem foldl_mergeRecord_ne_nil (tsOf : α → Int) (acc : List α) (batch : List α)
    (hacc : acc ≠ []) : batch.foldl (mergeRecord tsOf) acc ≠ [] := by
  induction batch generalizing acc with
  | nil => exact hacc
  | cons c rest ih => exact ih _ (mergeRecord_ne_nil tsOf acc c)

theorem sortByTs_perm (tsOf : α → Int) (l : List α) : (sortByTs tsOf l).Perm l :=
  List.perm_insertionSort _ l

theorem ingestGR_eq_nil {prev batch : List Candle} (h : ingestGR prev batch = []) :
    prev = [] := by
  unfold ingestGR at h
  by_cases hb : batch.isEmpty
  · rw [if_pos hb] at h; exact h
  · rw [if_neg hb] at h
    exfalso
    unfold ingestBatchCore at h
    have hbne : batch ≠ [] := by
      intro hnil
      rw [hnil] at hb
      exact hb rfl
    have hfold : batch.foldl (mergeRecord Candle.ts) prev ≠ [] := by
      cases batch with
      | nil => exact absurd rfl hbne
      | cons c rest =>
          rw [List.foldl_cons]
          exact foldl_mergeRecord_ne_nil _ _ _ (mergeRecord_ne_nil _ prev c)
    have hsort : sortByTs Candle.ts (batch.foldl (mergeRecord Candle.ts) prev) ≠ [] := by
      intro hs
      apply hfold
      have hperm := sortByTs_perm Candle.ts (batch.foldl (mergeRecord Candle.ts) prev)
      rw [hs] at hperm
      exact hperm.symm.eq_nil
    exact sliceLastN_ne_nil (by omega) hsort h

theorem ingestTrades_ne_nil' {s : List Candle} {trs : List Trade} (hs : s ≠ []) :
    ingestTrades s trs ≠ [] :=
  fun h => hs (ingestTrades_eq_nil h)

theorem step_good (s : SysState) (e : Event) (h : goodState s) : goodState (step s e) := by
  obtain ⟨h0, hc⟩ := h
  cases e with
  | tradesMsg trs =>
      constructor
      · intro hemp
        have hemp' : ingestTrades s.hlCandles trs = [] ∨ s.grCandles = [] := hemp
        show computeStep (ingestTrades s.hlCandles trs) s.grCandles s.metrics = ⟨0, 0, 0⟩
        unfold computeStep
        rw [if_pos (by rcases hemp' with he | he <;> simp [he])]
        rcases hemp' with he | he
        · exact h0 (Or.inl (ingestTrades_eq_nil he))
        · exact h0 (Or.inr he)
      · intro hhl hgr
        exact computeStep_char _ hhl hgr
  | grBatch b =>
      constructor
      · intro hemp
        have hemp' : s.hlCandles = [] ∨ ingestGR s.grCandles b = [] := hemp
        show computeStep s.hlCandles (ingestGR s.grCandles b) s.metrics = ⟨0, 0, 0⟩
        unfold computeStep
        rw [if_pos (by rcases hemp' with he | he <;> simp [he])]
        rcases hemp' with he | he
        · exact h0 (Or.inl he)
        · exact h0 (Or.inr (ingestGR_eq_nil he))
      · intro hhl hgr
        exact computeStep_char _ hhl hgr

theorem foldl_step_good (es : List Event) (s : SysState) (h : goodState s) :
    goodState (es.foldl step s) := by
  induction es generalizing s with
  | nil => exact h
  | cons e rest ih => exact ih _ (step_good s e h)

theorem run_good (es : List Event) : goodState (run es) :=
  foldl_step_good es initState ⟨fun _ => rfl, fun hh _ => absurd rfl hh⟩

/-- C3 (corrected): in every reachable state the metrics agree with the spec's
reference reconciler except that the code publishes `matchedPct`, the rounded
percentage `Math.round(100 * matchedFraction)`, instead of the fraction
itself; while either series is empty the metrics stay zeroed (the effect
returns early).  On the spec's scenario the code yields `matchedPct = 50` and
`meanPriceBps = 100`. -/
theorem claim_C3_reconciler_corrected :
    (∀ es : List Event,
      ((run es).hlCandles = [] ∨ (run es).grCandles = [] → (run es).metrics = ⟨0, 0, 0⟩) ∧
      ((run es).hlCandles ≠ [] → (run es).grCandles ≠ [] →
        (run es).metrics =
          ⟨jsRound (100 * specMatchedFraction (run es).hlCandles (run es).grCandles),
            specMeanBps (run es).hlCandles (run es).grCandles, 0⟩)) ∧
    computeStep [⟨60000, 10, 10, 10, 10, 1⟩, ⟨120000, 11, 11, 11, 11, 1⟩]
        [⟨60000, 101 / 10, 101 / 10, 101 / 10, 101 / 10, 1⟩] ⟨0, 0, 0⟩ =
      ⟨50, 100, 0⟩ := by
  constructor
  · exact fun es => run_good es
  · norm_num [computeStep, reconAcc, reconStep, List.find?, jsRound]
    rw [abs_of_pos (by norm_num : (0 : Rat) < 1 / 10)]
    norm_num

/-- Counterexample to C3 as stated: on the spec's scenario the value the code
stores in the matched-fraction slot is the rounded percentage 50, not the
fraction 0.5 the claim says `compute` returns. -/
theorem claim_C3_counterexample :
    computeStep [⟨60000, 10, 10, 10, 10, 1⟩, ⟨120000, 11, 11, 11, 11, 1⟩]
        [⟨60000, 101 / 10, 101 / 10, 101 / 10, 101 / 10, 1⟩] ⟨0, 0, 0⟩ =
      ⟨50, 100, 0⟩ ∧ (50 : Rat) ≠ 1 / 2 := by
  constructor
  · norm_num [computeStep, reconAcc, reconStep, List.find?, jsRound]
    rw [abs_of_pos (by norm_num : (0 : Rat) < 1 / 10)]
    norm_num
  · norm_num

/-- Witness for the corrected C3 on a concrete two-message trace. -/
theorem claim_C3_witness :
    ((run [Event.tradesMsg [⟨1000, 5, 1⟩],
        Event.grBatch [⟨0, 5, 5, 5, 5, 1⟩]]).hlCandles ≠ []) ∧
    ((run [Event.tradesMsg [⟨1000, 5, 1⟩],
        Event.grBatch [⟨0, 5, 5, 5, 5, 1⟩]]).grCandles ≠ []) ∧
    (run [Event.tradesMsg [⟨1000, 5, 1⟩], Event.grBatch [⟨0, 5, 5, 5, 5, 1⟩]]).metrics =
      ⟨jsRound (100 * specMatchedFraction
          (run [Event.tradesMsg [⟨1000, 5, 1⟩], Event.grBatch [⟨0, 5, 5, 5, 5, 1⟩]]).hlCandles
          (run [Event.tradesMsg [⟨1000, 5, 1⟩], Event.grBatch [⟨0, 5, 5, 5, 5, 1⟩]]).grCandles),
        specMeanBps
          (run [Event.tradesMsg [⟨1000, 5, 1⟩], Event.grBatch [⟨0, 5, 5, 5, 5, 1⟩]]).hlCandles
          (run [Event.tradesMsg [⟨1000, 5, 1⟩], Event.grBatch [⟨0, 5, 5, 5, 5, 1⟩]]).grCandles,
        0⟩ :=
  ⟨by decide, by decide,
    ((claim_C3_reconciler_corrected.1
        [Event.tradesMsg [⟨1000, 5, 1⟩], Event.grBatch [⟨0, 5, 5, 5, 5, 1⟩]]).2
      (by decide) (by decide))⟩

/-! ## The merge-by-key step in recursive form -/

theorem findIdx?_offset (p : α → Bool) (l : List α) (i : Nat) :
    l.findIdx? p i = (l.findIdx? p).map (· + i) := by
  induction l generalizing i with
  | nil => simp [List.findIdx?_nil]
  | cons x xs ih =>
      rw [List.findIdx?_cons, List.findIdx?_cons]
      by_cases h : p x
      · simp [h]
      · rw [if_neg (by simpa using h), if_neg (by simpa using h), ih (i + 1), ih 1,
          Option.map_map]
        congr 1
        funext j
        simp only [Function.comp_apply]
        omega

theorem mergeRecord_eq_replaceOrAppend (tsOf : α → Int) (acc : List α) (c : α) :
    mergeRecord tsOf acc c = replaceOrAppend tsOf acc c := by
  induction acc with
  | nil => simp [mergeRecord, replaceOrAppend, List.findIdx?_nil]
  | cons x xs ih =>
      unfold mergeRecord replaceOrAppend
      rw [List.findIdx?_cons]
      by_cases h : tsOf x = tsOf c
      · simp [h]
      · rw [if_neg (by simpa using h), if_neg h, findIdx?_offset]
        cases hfind : xs.findIdx? (fun nc => decide (tsOf nc = tsOf c)) with
        | none =>
            have hxs : mergeRecord tsOf xs c = xs ++ [c] := by
              unfold mergeRecord
              rw [hfind]
            simp only [Option.map_none']
            rw [← ih, hxs, List.cons_append]
        | some i =>
            have hxs : mergeRecord tsOf xs c = xs.set i c := by
              unfold mergeRecord
              rw [hfind]
            simp only [Option.map_some']
            rw [← ih, hxs, List.set_cons_succ]

theorem foldl_mergeRecord_eq (tsOf : α → Int) (prev batch : List α) :
    batch.foldl (mergeRecord tsOf) prev = batch.foldl (replaceOrAppend tsOf) prev := by
  induction batch generalizing prev with
  | nil => rfl
  | cons c rest ih =>
      rw [List.foldl_cons, List.foldl_cons, mergeRecord_eq_replaceOrAppend, ih]

/-! ## Last occurrence of a timestamp in a batch -/

theorem lastWithTs_cons (tsOf : α → Int) (t : Int) (c : α) (rest : List α) :
    lastWithTs tsOf t (c :: rest) =
      if tsOf c = t then some ((lastWithTs tsOf t rest).getD c)
      else lastWithTs tsOf t rest := rfl

theorem lastWithTs_cons_ne {tsOf : α → Int} {t : Int} {c : α} (rest : List α)
    (h : tsOf c ≠ t) : lastWithTs tsOf t (c :: rest) = lastWithTs tsOf t rest := by
  rw [lastWithTs_cons, if_neg h]

theorem lastWithTs_cons_eq {tsOf : α → Int} {t : Int} {c : α} (rest : List α)
    (h : tsOf c = t) :
    lastWithTs tsOf t (c :: rest) = some ((lastWithTs tsOf t rest).getD c) := by
  rw [lastWithTs_cons, if_pos h]

theorem lastWithTs_eq_none_iff (tsOf : α → Int) (t : Int) (l : List α) :
    lastWithTs tsOf t l = none ↔ t ∉ l.map tsOf := by
  induction l with
  | nil => simp [lastWithTs]
  | cons c rest ih =>
      by_cases h : tsOf c = t
      · rw [lastWithTs_cons_eq rest h]
        simp [h]
      · rw [lastWithTs_cons_ne rest h, ih]
        have h' : t ≠ tsOf c := fun he => h he.symm
        simp [h']

theorem lastWithTs_ts {tsOf : α → Int} {t : Int} : ∀ {l : List α} {y : α},
    lastWithTs tsOf t l = some y → tsOf y = t := by
  intro l
  induction l with
  | nil => intro y h; simp [lastWithTs] at h
  | cons c rest ih =>
      intro y h
      by_cases hc : tsOf c = t
      · rw [lastWithTs_cons_eq rest hc] at h
        cases hrest : lastWithTs tsOf t rest with
        | none =>
            rw [hrest] at h
            simp at h
            rw [← h]
            exact hc
        | some y' =>
            rw [hrest] at h
            simp at h
            rw [← h]
            exact ih hrest
      · rw [lastWithTs_cons_ne rest hc] at h
        exact ih h

theorem lastWithTs_mem {tsOf : α → Int} {t : Int} : ∀ {l : List α} {y : α},
    lastWithTs tsOf t l = some y → y ∈ l := by
  intro l
  induction l with
  | nil => intro y h; simp [lastWithTs] at h
  | cons c rest ih =>
      intro y h
      by_cases hc : tsOf c = t
      · rw [lastWithTs_cons_eq rest hc] at h
        cases hrest : lastWithTs tsOf t rest with
        | none =>
            rw [hrest] at h
            simp at h
            simp [← h]
        | some y' =>
            rw [hrest] at h
            simp at h
            simp [← h, ih hrest]
      · rw [lastWithTs_cons_ne rest hc] at h
        simp [ih h]

theorem lastD_cons_self (tsOf : α → Int) (c : α) (rest : List α) :
    lastD tsOf (c :: rest) c = lastD tsOf rest c := by
  unfold lastD
  rw [lastWithTs_cons_eq rest rfl]
  rfl

theorem lastD_cons_ne {tsOf : α → Int} {c x : α} (rest : List α)
    (h : tsOf c ≠ tsOf x) : lastD tsOf (c :: rest) x = lastD tsOf rest x := by
  unfold lastD
  rw [lastWithTs_cons_ne rest h]

theorem lastD_of_not_mem {tsOf : α → Int} {batch : List α} {x : α}
    (h : tsOf x ∉ batch.map tsOf) : lastD tsOf batch x = x := by
  unfold lastD
  rw [(lastWithTs_eq_none_iff tsOf (tsOf x) batch).mpr h]
  rfl

/-! ## Key sets of the merge fold -/

theorem map_replaceOrAppend_of_mem {tsOf : α → Int} {acc : List α} {c : α}
    (h : tsOf c ∈ acc.map tsOf) :
    (replaceOrAppend tsOf acc c).map tsOf = acc.map tsOf := by
  induction acc with
  | nil => simp at h
  | cons x xs ih =>
      unfold replaceOrAppend
      by_cases hx : tsOf x = tsOf c
      · rw [if_pos hx]
        simp [hx]
      · rw [if_neg hx]
        have hmem : tsOf c = tsOf x ∨ tsOf c ∈ xs.map tsOf := by simpa using h
        have : tsOf c ∈ xs.map tsOf := by
          rcases hmem with h' | h'
          · exact absurd h'.symm hx
          · exact h'
        simp [ih this]

theorem replaceOrAppend_of_not_mem {tsOf : α → Int} {acc : List α} {c : α}
    (h : tsOf c ∉ acc.map tsOf) : replaceOrAppend tsOf acc c = acc ++ [c] := by
  induction acc with
  | nil => rfl
  | cons x xs ih =>
      unfold replaceOrAppend
      have hx : tsOf x ≠ tsOf c := by
        intro he
        exact h (by simp [← he])
      rw [if_neg hx, ih (by intro hm; exact h (by simp [hm]))]
      rfl

theorem uniq_replaceOrAppend {tsOf : α → Int} {acc : List α} (c : α)
    (hu : UniqTs tsOf acc) : UniqTs tsOf (replaceOrAppend tsOf acc c) := by
  by_cases h : tsOf c ∈ acc.map tsOf
  · show (List.map tsOf _).Nodup
    rw [map_replaceOrAppend_of_mem h]
    exact hu
  · show (List.map tsOf _).Nodup
    rw [replaceOrAppend_of_not_mem h, List.map_append]
    rw [List.nodup_append]
    exact ⟨hu, by simp, by
      intro t ht
      simp only [List.map_cons, List.map_nil, List.mem_singleton]
      intro he
      exact h (he ▸ ht)⟩

theorem uniq_foldl_replaceOrAppend {tsOf : α → Int} {prev : List α} (batch : List α)
    (hu : UniqTs tsOf prev) : UniqTs tsOf (batch.foldl (replaceOrAppend tsOf) prev) := by
  induction batch generalizing prev with
  | nil => exact hu
  | cons c rest ih => exact ih (uniq_replaceOrAppend c hu)

theorem mem_K_replaceOrAppend_of_mem {tsOf : α → Int} {acc : List α} {t : Int} (c : α)
    (h : t ∈ acc.map tsOf) : t ∈ (replaceOrAppend tsOf acc c).map tsOf := by
  induction acc with
  | nil => simp at h
  | cons x xs ih =>
      unfold replaceOrAppend
      have hmem : t = tsOf x ∨ t ∈ xs.map tsOf := by simpa using h
      by_cases hx : tsOf x = tsOf c
      · rw [if_pos hx]
        rcases hmem with h' | h'
        · simp [h', ← hx]
        · simp [h']
      · rw [if_neg hx]
        rcases hmem with h' | h'
        · simp [h']
        · simp [ih h']

theorem mem_K_replaceOrAppend_self {tsOf : α → Int} (acc : List α) (c : α) :
    tsOf c ∈ (replaceOrAppend tsOf acc c).map tsOf := by
  induction acc with
  | nil => simp [replaceOrAppend]
  | cons x xs ih =>
      unfold replaceOrAppend
      by_cases hx : tsOf x = tsOf c
      · rw [if_pos hx]; simp
      · rw [if_neg hx]; simp [ih]

theorem mem_K_foldl_of_mem {tsOf : α → Int} {t : Int} (batch : List α) (acc : List α)
    (h : t ∈ acc.map tsOf) : t ∈ (batch.foldl (replaceOrAppend tsOf) acc).map tsOf := by
  induction batch generalizing acc with
  | nil => exact h
  | cons c rest ih => exact ih _ (mem_K_replaceOrAppend_of_mem c h)

theorem mem_K_foldl_of_mem_batch {tsOf : α → Int} {batch : List α} {c : α}
    (prev : List α) (h : c ∈ batch) :
    tsOf c ∈ (batch.foldl (replaceOrAppend tsOf) prev).map tsOf := by
  induction batch generalizing prev with
  | nil => simp at h
  | cons b rest ih =>
      rcases List.mem_cons.mp h with h' | h'
      · rw [h', List.foldl_cons]
        exact mem_K_foldl_of_mem rest _ (mem_K_replaceOrAppend_self prev b)
      · rw [List.foldl_cons]
        exact ih _ h'

/-! ## C9: no per-record validation in the candle merger -/

/-- C9 (amended): the `next` handler validates nothing per record — an empty
batch leaves the series unchanged (only a diagnostic is logged), and in a
non-empty batch every record, malformed or not, is merged verbatim: its
timestamp ends up keyed in the merged series, and a record with a missing
numeric field enters the series as-is. -/
theorem claim_C9_no_validation :
    (∀ prev : List JsCandle, ingestGRRaw prev [] = prev) ∧
    (∀ (prev : List JsCandle) (batch : List RawCandle) (r : RawCandle), r ∈ batch →
      r.timestamp ∈
        ((batch.map toJsCandle).foldl (mergeRecord JsCandle.ts) prev).map JsCandle.ts) ∧
    ingestGRRaw [] [⟨0, some 1, some 1, some 1, none, some 1⟩,
        ⟨60000, some 2, some 2, some 2, some 2, some 2⟩] =
      [⟨0, some 1, some 1, some 1, none, some 1⟩,
        ⟨60000, some 2, some 2, some 2, some 2, some 2⟩] := by
  refine ⟨fun prev => rfl, ?_, by decide⟩
  intro prev batch r hr
  rw [foldl_mergeRecord_eq]
  exact mem_K_foldl_of_mem_batch prev (List.mem_map_of_mem toJsCandle hr)

/-- Counterexample to C9 as stated: a record with a missing `close` field is
not dropped — it enters the series verbatim (the batch's other record is also
processed, as the claim says). -/
theorem claim_C9_counterexample :
    ingestGRRaw [] [⟨0, some 1, some 1, some 1, none, some 1⟩,
        ⟨60000, some 2, some 2, some 2, some 2, some 2⟩] =
      [⟨0, some 1, some 1, some 1, none, some 1⟩,
        ⟨60000, some 2, some 2, some 2, some 2, some 2⟩] ∧
    (⟨0, some 1, some 1, some 1, none, some 1⟩ : JsCandle) ∈
      ingestGRRaw [] [⟨0, some 1, some 1, some 1, none, some 1⟩,
        ⟨60000, some 2, some 2, some 2, some 2, some 2⟩] ∧
    JsCandle.jsClose ⟨0, some 1, some 1, some 1, none, some 1⟩ = none := by
  decide

/-- Witness for the amended C9 at a singleton malformed batch. -/
theorem claim_C9_witness :
    ((⟨0, some 1, some 1, some 1, none, some 1⟩ : RawCandle) ∈
      [(⟨0, some 1, some 1, some 1, none, some 1⟩ : RawCandle)]) ∧
    RawCandle.timestamp ⟨0, some 1, some 1, some 1, none, some 1⟩ ∈
      (([(⟨0, some 1, some 1, some 1, none, some 1⟩ : RawCandle)].map toJsCandle).foldl
        (mergeRecord JsCandle.ts) ([] : List JsCandle)).map JsCandle.ts :=
  ⟨by decide,
    claim_C9_no_validation.2.1 [] [⟨0, some 1, some 1, some 1, none, some 1⟩]
      ⟨0, some 1, some 1, some 1, none, some 1⟩ (by decide)⟩

/-! ## Sortedness infrastructure -/

theorem sortByTs_sorted (tsOf : α → Int) (l : List α) :
    List.Sorted (fun a b => tsOf a ≤ tsOf b) (sortByTs tsOf l) := by
  haveI ht : IsTotal α (fun a b => tsOf a ≤ tsOf b) := ⟨fun a b => le_total _ _⟩
  haveI htr : IsTrans α (fun a b => tsOf a ≤ tsOf b) := ⟨fun a b c hab hbc => le_trans hab hbc⟩
  exact List.sorted_insertionSort _ l

theorem sliceLastN_evict {tsOf : α → Int} {l : List α} {n : Nat} {t t' : Int}
    (hs : List.Sorted (fun a b => tsOf a ≤ tsOf b) l)
    (ht : t ∈ l.map tsOf) (htn : t ∉ (sliceLastN n l).map tsOf)
    (ht' : t' ∈ (sliceLastN n l).map tsOf) : t ≤ t' := by
  obtain ⟨x, hx, hxt⟩ := List.mem_map.mp ht
  obtain ⟨y, hy, hyt⟩ := List.mem_map.mp ht'
  have hl : l = l.take (l.length - n) ++ sliceLastN n l := (List.take_append_drop _ l).symm
  have hxtake : x ∈ l.take (l.length - n) := by
    rcases List.mem_append.mp (hl ▸ hx) with h | h
    · exact h
    · exact absurd (hxt ▸ List.mem_map_of_mem tsOf h) htn
  have hsplit := hs
  rw [hl] at hsplit
  have hle := (List.pairwise_append.mp hsplit).2.2 x hxtake y hy
  rw [hxt, hyt] at hle
  exact hle

/-! ## C6: retention bound and eviction order -/

theorem length_sliceLastN_le (n : Nat) (l : List α) : (sliceLastN n l).length ≤ n := by
  rw [length_sliceLastN]
  omega

theorem ingestTrade_length_le {s : List Candle} (tr : Trade) (h : s.length ≤ 100) :
    (ingestTrade s tr).length ≤ 100 := by
  cases hl : s.getLast? with
  | none =>
      rw [List.getLast?_eq_none_iff.mp hl, ingestTrade_empty]
      simp
  | some c =>
      by_cases hts : c.ts = bucketStart tr.time
      · rw [ingestTrade_update tr hl hts, List.length_append, List.length_dropLast]
        have : s ≠ [] := by
          intro hnil
          rw [hnil] at hl
          simp at hl
        have := List.length_pos_of_ne_nil this
        simp only [List.length_singleton]
        omega
      · rw [ingestTrade_append tr hl hts]
        exact length_sliceLastN_le _ _

theorem ingestTrades_length_le {s : List Candle} (trs : List Trade)
    (h : s.length ≤ 100) : (ingestTrades s trs).length ≤ 100 := by
  induction trs generalizing s with
  | nil => exact h
  | cons t rest ih => exact ih (ingestTrade_length_le t h)

theorem ingestGR_length_le {prev : List Candle} (batch : List Candle)
    (h : prev.length ≤ 100) : (ingestGR prev batch).length ≤ 100 := by
  unfold ingestGR
  split
  · exact h
  · exact length_sliceLastN_le _ _

theorem run_length_le (es : List Event) :
    (run es).hlCandles.length ≤ 100 ∧ (run es).grCandles.length ≤ 100 := by
  have main : ∀ (es : List Event) (s : SysState), s.hlCandles.length ≤ 100 →
      s.grCandles.length ≤ 100 →
      (es.foldl step s).hlCandles.length ≤ 100 ∧ (es.foldl step s).grCandles.length ≤ 100 := by
    intro es
    induction es with
    | nil => exact fun s h1 h2 => ⟨h1, h2⟩
    | cons e rest ih =>
        intro s h1 h2
        cases e with
        | tradesMsg trs => exact ih _ (ingestTrades_length_le trs h1) h2
        | grBatch b => exact ih _ h1 (ingestGR_length_le b h2)
  exact main es initState (by simp [initState]) (by simp [initState])

theorem sorted_of_map_ts_eq {l l' : List Candle}
    (h : l'.map Candle.ts = l.map Candle.ts)
    (hs : List.Sorted (fun a b : Candle => a.ts ≤ b.ts) l) :
    List.Sorted (fun a b : Candle => a.ts ≤ b.ts) l' := by
  have hs' : List.Pairwise (fun x y : Int => x ≤ y) (l.map Candle.ts) :=
    List.pairwise_map.mpr hs
  rw [← h] at hs'
  exact List.pairwise_map.mp hs'

theorem map_ts_ingestTrade_update {s : List Candle} {c : Candle} (tr : Trade)
    (hlast : s.getLast? = some c) (hts : c.ts = bucketStart tr.time) :
    (ingestTrade s tr).map Candle.ts = s.map Candle.ts := by
  rw [ingestTrade_update tr hlast hts]
  conv_rhs => rw [← List.dropLast_append_getLast? c hlast]
  rw [List.map_append, List.map_append]
  rfl

/-- C6 (amended): neither series ever exceeds 100 candles.  On eviction the
GoldRush merger always drops the smallest bucket starts (it sorts before
slicing); the trade aggregator drops the smallest bucket starts provided the
series is sorted and the incoming trade's bucket is not before the tail — the
non-decreasing-arrival regime the spec assumes.  (For out-of-order trades the
aggregator evicts the front of the series regardless of its timestamp — see
the counterexample.) -/
theorem claim_C6_bound_and_eviction :
    (∀ es : List Event, (run es).hlCandles.length ≤ 100 ∧ (run es).grCandles.length ≤ 100) ∧
    (∀ (prev batch : List Candle) (t t' : Int),
      t ∈ (sortByTs Candle.ts (batch.foldl (mergeRecord Candle.ts) prev)).map Candle.ts →
      t ∉ (ingestBatchCore Candle.ts prev batch).map Candle.ts →
      t' ∈ (ingestBatchCore Candle.ts prev batch).map Candle.ts → t ≤ t') ∧
    (∀ (s : List Candle) (tr : Trade),
      List.Sorted (fun a b : Candle => a.ts ≤ b.ts) s →
      (∀ c ∈ s, c.ts ≤ bucketStart tr.time) →
      List.Sorted (fun a b : Candle => a.ts ≤ b.ts) (ingestTrade s tr) ∧
      (∀ t t' : Int, t ∈ s.map Candle.ts → t ∉ (ingestTrade s tr).map Candle.ts →
        t' ∈ (ingestTrade s tr).map Candle.ts → t ≤ t')) := by
  refine ⟨run_length_le, ?_, ?_⟩
  · intro prev batch t t' ht htn ht'
    exact sliceLastN_evict (sortByTs_sorted Candle.ts _) ht htn ht'
  · intro s tr hs hmax
    cases hl : s.getLast? with
    | none =>
        rw [List.getLast?_eq_none_iff.mp hl] at hs hmax ⊢
        rw [ingestTrade_empty]
        exact ⟨List.sorted_singleton _, by intro t t' ht; simp at ht⟩
    | some c =>
        by_cases hts : c.ts = bucketStart tr.time
        · have hmap := map_ts_ingestTrade_update tr hl hts
          constructor
          · exact sorted_of_map_ts_eq hmap hs
          · intro t t' ht htn
            rw [hmap] at htn
            exact absurd ht htn
        · have happ := ingestTrade_append tr hl hts
          have hsorted : List.Sorted (fun a b : Candle => a.ts ≤ b.ts)
              (s ++ [freshCandle (bucketStart tr.time) tr.px tr.sz]) := by
            show List.Pairwise (fun a b : Candle => a.ts ≤ b.ts)
              (s ++ [freshCandle (bucketStart tr.time) tr.px tr.sz])
            rw [List.pairwise_append]
            refine ⟨hs, List.sorted_singleton _, ?_⟩
            intro a ha b hb
            have : b = freshCandle (bucketStart tr.time) tr.px tr.sz := by simpa using hb
            rw [this]
            exact hmax a ha
          constructor
          · rw [happ]
            exact List.Pairwise.sublist ((sliceLastN_suffix _ _).sublist) hsorted
          · intro t t' ht htn ht'
            rw [happ] at htn ht'
            refine sliceLastN_evict hsorted ?_ htn ht'
            rw [List.map_append]
            exact List.mem_append.mpr (Or.inl ht)

set_option maxRecDepth 100000 in
/-- Counterexample to C6 as stated: ingesting 101 trades with strictly
decreasing bucket starts (6000000 down to 0) leaves 100 candles, but the
evicted entry is the one with the largest bucket start 6000000 — the oldest
entry (bucket 0, ingested first — wall-clock newest bucket) is retained, so
the evicted entries are not the ones with the smallest bucketStart. -/
theorem claim_C6_counterexample :
    (ingestTrades [] ((List.range 101).map (fun i =>
        (⟨6000000 - 60000 * (i : Int), 1, 1⟩ : Trade)))).length = 100 ∧
    (∃ c ∈ ingestTrades [] ((List.range 101).map (fun i =>
        (⟨6000000 - 60000 * (i : Int), 1, 1⟩ : Trade))), c.ts = 0) ∧
    (∀ c ∈ ingestTrades [] ((List.range 101).map (fun i =>
        (⟨6000000 - 60000 * (i : Int), 1, 1⟩ : Trade))), c.ts ≠ 6000000) := by
  decide

set_option maxRecDepth 100000 in
/-- Witness for the amended C6: a 101-record batch into the GoldRush merger
evicts bucket 0 and keeps bucket 6000000, and the trade aggregator on a sorted
100-candle series stays sorted. -/
theorem claim_C6_witness :
    (run []).hlCandles.length ≤ 100 ∧
    (0 : Int) ≤ 6000000 ∧
    List.Sorted (fun a b : Candle => a.ts ≤ b.ts)
      (ingestTrade ((List.range 100).map (fun i => freshCandle (60000 * (i : Int)) 1 1))
        ⟨6000000, 1, 1⟩) :=
  ⟨(claim_C6_bound_and_eviction.1 []).1,
    claim_C6_bound_and_eviction.2.1 []
      ((List.range 101).map (fun i => freshCandle (60000 * (i : Int)) 1 1)) 0 6000000
      (by decide) (by decide) (by decide),
    (claim_C6_bound_and_eviction.2.2
      ((List.range 100).map (fun i => freshCandle (60000 * (i : Int)) 1 1))
      ⟨6000000, 1, 1⟩ (by decide) (by decide)).1⟩

/-! ## Characterisation of the merge fold -/

theorem lastD_ts (tsOf : α → Int) (batch : List α) (c : α) :
    tsOf (lastD tsOf batch c) = tsOf c := by
  unfold lastD
  cases hl : lastWithTs tsOf (tsOf c) batch with
  | none => rfl
  | some y => simpa using lastWithTs_ts hl

theorem newRecords_nil (tsOf : α → Int) (seen : List Int) :
    newRecords tsOf seen [] = [] := rfl

theorem newRecords_cons (tsOf : α → Int) (seen : List Int) (c : α) (rest : List α) :
    newRecords tsOf seen (c :: rest) =
      if tsOf c ∈ seen then newRecords tsOf seen rest
      else lastD tsOf (c :: rest) c :: newRecords tsOf (tsOf c :: seen) rest := rfl

theorem newRecords_congr (tsOf : α → Int) : ∀ (batch : List α) (seen seen' : List Int),
    (∀ t, t ∈ seen ↔ t ∈ seen') →
    newRecords tsOf seen batch = newRecords tsOf seen' batch := by
  intro batch
  induction batch with
  | nil => intro seen seen' _; rfl
  | cons c rest ih =>
      intro seen seen' h
      rw [newRecords_cons, newRecords_cons]
      by_cases hc : tsOf c ∈ seen
      · rw [if_pos hc, if_pos ((h _).mp hc)]
        exact ih _ _ h
      · rw [if_neg hc, if_neg (fun hx => hc ((h _).mpr hx))]
        congr 1
        refine ih _ _ ?_
        intro t
        simp [h t]

theorem map_subst_replace {tsOf : α → Int} (rest : List α) :
    ∀ {prev : List α} (c : α), UniqTs tsOf prev → tsOf c ∈ prev.map tsOf →
    (replaceOrAppend tsOf prev c).map (lastD tsOf rest) =
      prev.map (lastD tsOf (c :: rest)) := by
  intro prev
  induction prev with
  | nil => intro c _ hc; simp at hc
  | cons x xs ih =>
      intro c hu hc
      have hux : tsOf x ∉ xs.map tsOf := (List.nodup_cons.mp hu).1
      have huxs : UniqTs tsOf xs := (List.nodup_cons.mp hu).2
      unfold replaceOrAppend
      by_cases hx : tsOf x = tsOf c
      · rw [if_pos hx, List.map_cons, List.map_cons]
        congr 1
        · unfold lastD
          rw [hx, lastWithTs_cons_eq rest rfl]
          rfl
        · refine List.map_congr_left ?_
          intro a ha
          have hne : tsOf c ≠ tsOf a := by
            intro he
            exact hux (hx ▸ he ▸ List.mem_map_of_mem tsOf ha)
          exact (lastD_cons_ne rest hne).symm
      · rw [if_neg hx, List.map_cons, List.map_cons]
        have hcxs : tsOf c ∈ xs.map tsOf := by
          have hmem : tsOf c = tsOf x ∨ tsOf c ∈ xs.map tsOf := by simpa using hc
          rcases hmem with h' | h'
          · exact absurd h'.symm hx
          · exact h'
        congr 1
        · exact (lastD_cons_ne rest (fun he => hx he.symm)).symm
        · exact ih c huxs hcxs

theorem foldl_replaceOrAppend_char (tsOf : α → Int) :
    ∀ (batch prev : List α), UniqTs tsOf prev →
    batch.foldl (replaceOrAppend tsOf) prev =
      prev.map (lastD tsOf batch) ++ newRecords tsOf (prev.map tsOf) batch := by
  intro batch
  induction batch with
  | nil =>
      intro prev _
      rw [List.foldl_nil]
      show prev = prev.map (lastD tsOf []) ++ newRecords tsOf (prev.map tsOf) []
      have hmap : ∀ a ∈ prev, lastD tsOf [] a = id a := fun a _ =>
        lastD_of_not_mem (by simp)
      rw [List.map_congr_left hmap, List.map_id, newRecords_nil, List.append_nil]
  | cons c rest ih =>
      intro prev hu
      rw [List.foldl_cons]
      by_cases hc : tsOf c ∈ prev.map tsOf
      · have hKeq : (replaceOrAppend tsOf prev c).map tsOf = prev.map tsOf :=
          map_replaceOrAppend_of_mem hc
        have hu' : UniqTs tsOf (replaceOrAppend tsOf prev c) := uniq_replaceOrAppend c hu
        rw [ih _ hu', hKeq]
        have hnews : newRecords tsOf (prev.map tsOf) (c :: rest) =
            newRecords tsOf (prev.map tsOf) rest := by
          rw [newRecords_cons, if_pos hc]
        rw [hnews, map_subst_replace rest c hu hc]
      · have happ : replaceOrAppend tsOf prev c = prev ++ [c] :=
          replaceOrAppend_of_not_mem hc
        have hu' : UniqTs tsOf (prev ++ [c]) := by
          show ((prev ++ [c]).map tsOf).Nodup
          rw [List.map_append, List.nodup_append]
          refine ⟨hu, by simp, ?_⟩
          intro t ht
          simp only [List.map_cons, List.map_nil, List.mem_singleton]
          intro he
          exact hc (he ▸ ht)
        rw [happ, ih _ hu']
        have hnews : newRecords tsOf (prev.map tsOf) (c :: rest) =
            lastD tsOf (c :: rest) c :: newRecords tsOf (tsOf c :: prev.map tsOf) rest := by
          rw [newRecords_cons, if_neg hc]
        rw [hnews, List.map_append, List.map_append, List.append_assoc]
        congr 1
        · refine List.map_congr_left ?_
          intro a ha
          have hne : tsOf c ≠ tsOf a := fun he => hc (he ▸ List.mem_map_of_mem tsOf ha)
          exact (lastD_cons_ne rest hne).symm
        · show [lastD tsOf rest c] ++ newRecords tsOf ((prev.map tsOf) ++ [tsOf c]) rest =
            lastD tsOf (c :: rest) c :: newRecords tsOf (tsOf c :: prev.map tsOf) rest
          rw [lastD_cons_self]
          rw [List.singleton_append]
          congr 1
          refine newRecords_congr tsOf rest _ _ ?_
          intro t
          simp [or_comm]

theorem newRecords_mem (tsOf : α → Int) : ∀ (batch : List α) (seen : List Int) (e : α),
    e ∈ newRecords tsOf seen batch →
    tsOf e ∉ seen ∧ lastWithTs tsOf (tsOf e) batch = some e := by
  intro batch
  induction batch with
  | nil => intro seen e he; rw [newRecords_nil] at he; simp at he
  | cons c rest ih =>
      intro seen e he
      rw [newRecords_cons] at he
      by_cases hc : tsOf c ∈ seen
      · rw [if_pos hc] at he
        obtain ⟨h1, h2⟩ := ih seen e he
        refine ⟨h1, ?_⟩
        rw [lastWithTs_cons_ne rest (fun he' => h1 (by rw [← he']; exact hc))]
        exact h2
      · rw [if_neg hc] at he
        rcases List.mem_cons.mp he with he' | he'
        · have hts : tsOf (lastD tsOf (c :: rest) c) = tsOf c := lastD_ts tsOf _ c
          subst he'
          constructor
          · rw [hts]
            exact hc
          · rw [hts, lastWithTs_cons_eq rest rfl, lastD_cons_self]
            rfl
        · obtain ⟨h1, h2⟩ := ih _ e he'
          have hne : tsOf c ≠ tsOf e := by
            intro he2
            exact h1 (by simp [← he2])
          refine ⟨fun hx => h1 (by simp [hx]), ?_⟩
          rw [lastWithTs_cons_ne rest hne]
          exact h2

theorem newRecords_uniq (tsOf : α → Int) : ∀ (batch : List α) (seen : List Int),
    UniqTs tsOf (newRecords tsOf seen batch) := by
  intro batch
  induction batch with
  | nil => intro seen; simp [newRecords_nil, UniqTs]
  | cons c rest ih =>
      intro seen
      rw [newRecords_cons]
      by_cases hc : tsOf c ∈ seen
      · rw [if_pos hc]
        exact ih seen
      · rw [if_neg hc]
        show ((lastD tsOf (c :: rest) c ::
          newRecords tsOf (tsOf c :: seen) rest).map tsOf).Nodup
        rw [List.map_cons, List.nodup_cons]
        constructor
        · intro hmem
          obtain ⟨y, hy, hyt⟩ := List.mem_map.mp hmem
          obtain ⟨h1, _⟩ := newRecords_mem tsOf rest _ y hy
          apply h1
          rw [hyt, lastD_ts tsOf (c :: rest) c]
          simp
        · exact ih _

theorem merged_mem_lastWithTs {tsOf : α → Int} {prev batch : List α}
    (hu : UniqTs tsOf prev) {e : α}
    (he : e ∈ batch.foldl (replaceOrAppend tsOf) prev)
    (ht : tsOf e ∈ batch.map tsOf) : lastWithTs tsOf (tsOf e) batch = some e := by
  rw [foldl_replaceOrAppend_char tsOf batch prev hu] at he
  rcases List.mem_append.mp he with hm | hm
  · obtain ⟨x, hx, hxe⟩ := List.mem_map.mp hm
    unfold lastD at hxe
    cases hl : lastWithTs tsOf (tsOf x) batch with
    | none =>
        rw [hl] at hxe
        have hx' : tsOf x ∉ batch.map tsOf := (lastWithTs_eq_none_iff _ _ _).mp hl
        have hex : e = x := by simpa using hxe.symm
        rw [hex] at ht
        exact absurd ht hx'
    | some y =>
        rw [hl] at hxe
        have hey : e = y := by simpa using hxe.symm
        have hyx : tsOf y = tsOf x := lastWithTs_ts hl
        rw [hey, hyx]
        exact hl
  · exact (newRecords_mem tsOf batch _ e hm).2

/-! ## Sorted-unique series are determined by their contents -/

theorem uniq_of_perm {tsOf : α → Int} {l₁ l₂ : List α} (hp : l₁.Perm l₂)
    (hu : UniqTs tsOf l₁) : UniqTs tsOf l₂ := ((hp.map tsOf).nodup_iff).mp hu

theorem uniq_sliceLastN {tsOf : α → Int} (n : Nat) {l : List α} (hu : UniqTs tsOf l) :
    UniqTs tsOf (sliceLastN n l) :=
  List.Nodup.sublist (List.Sublist.map tsOf (sliceLastN_suffix n l).sublist) hu

theorem sorted_lt_of_uniq {tsOf : α → Int} {l : List α}
    (hs : List.Sorted (fun a b => tsOf a ≤ tsOf b) l) (hu : UniqTs tsOf l) :
    List.Pairwise (fun a b => tsOf a < tsOf b) l := by
  have hu' : List.Pairwise (fun x y : Int => x ≠ y) (l.map tsOf) := hu
  have hne : List.Pairwise (fun a b => tsOf a ≠ tsOf b) l := List.pairwise_map.mp hu'
  exact (List.Pairwise.and hs hne).imp (fun h => lt_of_le_of_ne h.1 h.2)

theorem eq_of_perm_of_sorted_lt {tsOf : α → Int} {l₁ l₂ : List α} (hp : l₁.Perm l₂)
    (h1 : List.Pairwise (fun a b => tsOf a < tsOf b) l₁)
    (h2 : List.Pairwise (fun a b => tsOf a < tsOf b) l₂) : l₁ = l₂ := by
  haveI : IsAntisymm α (fun a b => tsOf a < tsOf b) :=
    ⟨fun a b hab hba => absurd (lt_trans hab hba) (lt_irrefl _)⟩
  exact List.eq_of_perm_of_sorted hp h1 h2

theorem sortByTs_of_sorted {tsOf : α → Int} {l : List α}
    (h : List.Sorted (fun a b => tsOf a ≤ tsOf b) l) : sortByTs tsOf l = l :=
  List.Sorted.insertionSort_eq h

/-! ## C2: idempotence of the candle merger -/

theorem ingestBatchCore_idem (tsOf : α → Int) (prev batch : List α)
    (hu : UniqTs tsOf prev) :
    ingestBatchCore tsOf (ingestBatchCore tsOf prev batch) batch =
      ingestBatchCore tsOf prev batch := by
  have hcore : ∀ p : List α, ingestBatchCore tsOf p batch =
      sliceLastN 100 (sortByTs tsOf (batch.foldl (replaceOrAppend tsOf) p)) := by
    intro p
    unfold ingestBatchCore
    rw [foldl_mergeRecord_eq]
  rw [hcore, hcore]
  set M := batch.foldl (replaceOrAppend tsOf) prev with hMdef
  set S := sortByTs tsOf M with hSdef
  set s1 := sliceLastN 100 S with hs1def
  have huM : UniqTs tsOf M := uniq_foldl_replaceOrAppend batch hu
  have hpermS : S.Perm M := sortByTs_perm tsOf M
  have hsortS : List.Sorted (fun a b => tsOf a ≤ tsOf b) S := sortByTs_sorted tsOf M
  have huS : UniqTs tsOf S := uniq_of_perm hpermS.symm huM
  have hu1 : UniqTs tsOf s1 := uniq_sliceLastN 100 huS
  have hsort1 : List.Sorted (fun a b => tsOf a ≤ tsOf b) s1 :=
    List.Pairwise.sublist (sliceLastN_suffix 100 S).sublist hsortS
  have hmapid : s1.map (lastD tsOf batch) = s1 := by
    have hid : ∀ x ∈ s1, lastD tsOf batch x = id x := by
      intro x hx
      by_cases hxb : tsOf x ∈ batch.map tsOf
      · have hxM : x ∈ M := hpermS.subset (sliceLastN_subset 100 S hx)
        have hlw := merged_mem_lastWithTs hu hxM hxb
        unfold lastD
        rw [hlw]
        rfl
      · exact lastD_of_not_mem hxb
    rw [List.map_congr_left hid, List.map_id]
  have hchar2 : batch.foldl (replaceOrAppend tsOf) s1 =
      s1 ++ newRecords tsOf (s1.map tsOf) batch := by
    rw [foldl_replaceOrAppend_char tsOf batch s1 hu1, hmapid]
  have hEfacts : ∀ e ∈ newRecords tsOf (s1.map tsOf) batch,
      tsOf e ∉ s1.map tsOf ∧ tsOf e ∈ M.map tsOf := by
    intro e heE
    obtain ⟨h1, h2⟩ := newRecords_mem tsOf batch _ e heE
    exact ⟨h1, mem_K_foldl_of_mem_batch prev (lastWithTs_mem h2)⟩
  by_cases hlen : S.length ≤ 100
  · have hs1S : s1 = S := by
      rw [hs1def]
      exact sliceLastN_eq_self hlen
    have hEnil : newRecords tsOf (s1.map tsOf) batch = [] := by
      rw [List.eq_nil_iff_forall_not_mem]
      intro e heE
      obtain ⟨h1, h2⟩ := hEfacts e heE
      apply h1
      rw [hs1S]
      exact ((hpermS.map tsOf).mem_iff).mpr h2
    rw [hchar2, hEnil, List.append_nil, sortByTs_of_sorted hsort1]
    exact sliceLastN_eq_self (by rw [hs1S]; exact hlen)
  · push_neg at hlen
    have hlen1 : s1.length = 100 := by
      rw [hs1def, length_sliceLastN]
      omega
    have hltS : List.Pairwise (fun a b => tsOf a < tsOf b) S := sorted_lt_of_uniq hsortS huS
    have hbelow : ∀ e ∈ newRecords tsOf (s1.map tsOf) batch, ∀ y ∈ s1, tsOf e < tsOf y := by
      intro e heE y hy
      obtain ⟨h1, h2⟩ := hEfacts e heE
      have heS : tsOf e ∈ S.map tsOf := ((hpermS.map tsOf).mem_iff).mpr h2
      obtain ⟨x, hxS, hxt⟩ := List.mem_map.mp heS
      have hsplit : S = S.take (S.length - 100) ++ s1 := by
        rw [hs1def]
        exact (List.take_append_drop _ S).symm
      have hxtake : x ∈ S.take (S.length - 100) := by
        rcases List.mem_append.mp (hsplit ▸ hxS) with h | h
        · exact h
        · exact absurd (hxt ▸ List.mem_map_of_mem tsOf h) h1
      have hltS' := hltS
      rw [hsplit] at hltS'
      have hxy := (List.pairwise_append.mp hltS').2.2 x hxtake y hy
      rw [hxt] at hxy
      exact hxy
    have huE : UniqTs tsOf (newRecords tsOf (s1.map tsOf) batch) :=
      newRecords_uniq tsOf batch _
    have hpermE := sortByTs_perm tsOf (newRecords tsOf (s1.map tsOf) batch)
    have hsortE := sortByTs_sorted tsOf (newRecords tsOf (s1.map tsOf) batch)
    have huSE : UniqTs tsOf (s1 ++ newRecords tsOf (s1.map tsOf) batch) := by
      show ((s1 ++ _).map tsOf).Nodup
      rw [List.map_append, List.nodup_append]
      refine ⟨hu1, huE, ?_⟩
      intro t ht htE
      obtain ⟨e, heE, hte⟩ := List.mem_map.mp htE
      exact (hEfacts e heE).1 (hte ▸ ht)
    have hsorteq : sortByTs tsOf (s1 ++ newRecords tsOf (s1.map tsOf) batch) =
        sortByTs tsOf (newRecords tsOf (s1.map tsOf) batch) ++ s1 := by
      refine @eq_of_perm_of_sorted_lt α tsOf _ _ ?_ ?_ ?_
      · exact ((sortByTs_perm tsOf _).trans List.perm_append_comm).trans
          (hpermE.append_right s1).symm
      · exact sorted_lt_of_uniq (sortByTs_sorted tsOf _)
          (uniq_of_perm (sortByTs_perm tsOf _).symm huSE)
      · rw [List.pairwise_append]
        refine ⟨sorted_lt_of_uniq hsortE (uniq_of_perm hpermE.symm huE),
          sorted_lt_of_uniq hsort1 hu1, ?_⟩
        intro a ha y hy
        exact hbelow a (hpermE.subset ha) y hy
    rw [hchar2, hsorteq]
    exact sliceLastN_append_right hlen1

theorem ingestGR_uniq {prev : List Candle} (batch : List Candle)
    (hu : UniqTs Candle.ts prev) : UniqTs Candle.ts (ingestGR prev batch) := by
  unfold ingestGR
  split
  · exact hu
  · unfold ingestBatchCore
    rw [foldl_mergeRecord_eq]
    exact uniq_sliceLastN 100 (uniq_of_perm (sortByTs_perm _ _).symm
      (uniq_foldl_replaceOrAppend batch hu))

theorem run_gr_uniq (es : List Event) : UniqTs Candle.ts (run es).grCandles := by
  have main : ∀ (es : List Event) (s : SysState), UniqTs Candle.ts s.grCandles →
      UniqTs Candle.ts ((es.foldl step s).grCandles) := by
    intro es
    induction es with
    | nil => exact fun _ h => h
    | cons e rest ih =>
        intro s h
        cases e with
        | tradesMsg trs => exact ih _ h
        | grBatch b => exact ih _ (ingestGR_uniq b h)
  exact main es initState (by simp [initState, UniqTs])

/-- C2: CandleMerger ingest is idempotent — every reachable GoldRush series
has pairwise-distinct bucket starts, and for every series state with that
invariant and every batch, ingesting the batch a second time returns exactly
the series the first ingest produced (same entries, same order, same
length). -/
theorem claim_C2_merger_idempotent :
    (∀ es : List Event, UniqTs Candle.ts (run es).grCandles) ∧
    (∀ (prev batch : List Candle), UniqTs Candle.ts prev →
      ingestGR (ingestGR prev batch) batch = ingestGR prev batch) := by
  refine ⟨run_gr_uniq, ?_⟩
  intro prev batch hu
  by_cases hb : batch.isEmpty
  · have h1 : ingestGR prev batch = prev := by
      unfold ingestGR
      rw [if_pos hb]
    rw [h1, h1]
  · have h2 : ∀ p : List Candle, ingestGR p batch = ingestBatchCore Candle.ts p batch := by
      intro p
      unfold ingestGR
      rw [if_neg hb]
    rw [h2 prev, h2 (ingestBatchCore Candle.ts prev batch)]
    exact ingestBatchCore_idem Candle.ts prev batch hu

/-- Witness for C2 on a concrete series and two-record batch (the batch both
revises an existing bucket and inserts a new one). -/
theorem claim_C2_witness :
    UniqTs Candle.ts [(⟨0, 1, 1, 1, 1, 1⟩ : Candle), ⟨60000, 4, 4, 4, 4, 4⟩] ∧
    ingestGR (ingestGR [⟨0, 1, 1, 1, 1, 1⟩, ⟨60000, 4, 4, 4, 4, 4⟩]
        [⟨60000, 2, 2, 2, 2, 2⟩, ⟨120000, 3, 3, 3, 3, 3⟩])
        [⟨60000, 2, 2, 2, 2, 2⟩, ⟨120000, 3, 3, 3, 3, 3⟩] =
      ingestGR [⟨0, 1, 1, 1, 1, 1⟩, ⟨60000, 4, 4, 4, 4, 4⟩]
        [⟨60000, 2, 2, 2, 2, 2⟩, ⟨120000, 3, 3, 3, 3, 3⟩] :=
  ⟨by unfold UniqTs; decide, claim_C2_merger_idempotent.2 _ _ (by unfold UniqTs; decide)⟩

/-! ## C8: replace-by-key is frame-preserving -/

theorem sorted_of_map_key_eq {tsOf : α → Int} {l l' : List α}
    (h : l'.map tsOf = l.map tsOf)
    (hs : List.Sorted (fun a b => tsOf a ≤ tsOf b) l) :
    List.Sorted (fun a b => tsOf a ≤ tsOf b) l' := by
  have hs' : List.Pairwise (fun x y : Int => x ≤ y) (l.map tsOf) :=
    List.pairwise_map.mpr hs
  rw [← h] at hs'
  exact List.pairwise_map.mp hs'

theorem map_ts_set {tsOf : α → Int} : ∀ (batch : List α) (j : Nat) (hj : j < batch.length)
    (c' : α), tsOf c' = tsOf (batch.get ⟨j, hj⟩) →
    (batch.set j c').map tsOf = batch.map tsOf := by
  intro batch
  induction batch with
  | nil => intro j hj; simp at hj
  | cons x xs ih =>
      intro j hj c' hts
      cases j with
      | zero =>
          rw [List.set_cons_zero]
          simp only [List.map_cons]
          rw [hts]
          rfl
      | succ k =>
          have hk : k < xs.length := by
            simp only [List.length_cons] at hj
            omega
          rw [List.set_cons_succ]
          simp only [List.map_cons]
          rw [ih k hk c' hts]

theorem lastWithTs_set {tsOf : α → Int} : ∀ (batch : List α) (j : Nat)
    (hj : j < batch.length) (c' : α), UniqTs tsOf batch →
    tsOf c' = tsOf (batch.get ⟨j, hj⟩) → ∀ t : Int,
    lastWithTs tsOf t (batch.set j c') =
      if t = tsOf (batch.get ⟨j, hj⟩) then some c' else lastWithTs tsOf t batch := by
  intro batch
  induction batch with
  | nil => intro j hj; simp at hj
  | cons x xs ih =>
      intro j hj c' hu hts t
      have hux : tsOf x ∉ xs.map tsOf := (List.nodup_cons.mp hu).1
      have huxs : UniqTs tsOf xs := (List.nodup_cons.mp hu).2
      cases j with
      | zero =>
          rw [List.set_cons_zero]
          show lastWithTs tsOf t (c' :: xs) =
            if t = tsOf x then some c' else lastWithTs tsOf t (x :: xs)
          by_cases hxt : t = tsOf x
          · rw [if_pos hxt, lastWithTs_cons_eq xs (by rw [hts]; exact hxt.symm),
              (lastWithTs_eq_none_iff tsOf t xs).mpr (by rw [hxt]; exact hux)]
            rfl
          · rw [if_neg hxt, lastWithTs_cons_ne xs (by rw [hts]; exact fun he => hxt he.symm),
              lastWithTs_cons_ne xs (fun he => hxt he.symm)]
      | succ k =>
          have hk : k < xs.length := by
            simp only [List.length_cons] at hj
            omega
          have hgm : xs.get ⟨k, hk⟩ ∈ xs := xs.get_mem k hk
          have hne : tsOf x ≠ tsOf (xs.get ⟨k, hk⟩) := by
            intro he
            exact hux (he ▸ List.mem_map_of_mem tsOf hgm)
          have hts' : tsOf c' = tsOf (xs.get ⟨k, hk⟩) := hts
          show lastWithTs tsOf t (x :: xs.set k c') =
            if t = tsOf (xs.get ⟨k, hk⟩) then some c' else lastWithTs tsOf t (x :: xs)
          rw [lastWithTs_cons tsOf t x (xs.set k c'), ih k hk c' huxs hts' t,
            lastWithTs_cons tsOf t x xs]
          by_cases h2 : t = tsOf (xs.get ⟨k, hk⟩)
          · have h1 : tsOf x ≠ t := fun h1 => hne (h1.trans h2)
            simp only [if_pos h2, if_neg h1]
          · simp only [if_neg h2]

/-- Shared eviction core: writing back a ts-preserving rewrite `W` of the
retained window plus a bundle `E` of records whose timestamps were evicted
(all present in `M`, none in the window) sorts and truncates back to `W`. -/
theorem slice_sort_of_extras (tsOf : α → Int) (M W E : List α) (huM : UniqTs tsOf M)
    (hWK : W.map tsOf = (sliceLastN 100 (sortByTs tsOf M)).map tsOf)
    (huE : UniqTs tsOf E)
    (hE : ∀ e ∈ E, tsOf e ∉ (sliceLastN 100 (sortByTs tsOf M)).map tsOf ∧
      tsOf e ∈ M.map tsOf) :
    sliceLastN 100 (sortByTs tsOf (W ++ E)) = W := by
  set S := sortByTs tsOf M with hSdef
  set s1 := sliceLastN 100 S with hs1def
  have hpermS : S.Perm M := sortByTs_perm tsOf M
  have hsortS : List.Sorted (fun a b => tsOf a ≤ tsOf b) S := sortByTs_sorted tsOf M
  have huS : UniqTs tsOf S := uniq_of_perm hpermS.symm huM
  have hu1 : UniqTs tsOf s1 := uniq_sliceLastN 100 huS
  have hsort1 : List.Sorted (fun a b => tsOf a ≤ tsOf b) s1 :=
    List.Pairwise.sublist (sliceLastN_suffix 100 S).sublist hsortS
  have huW : UniqTs tsOf W := by
    show (W.map tsOf).Nodup
    rw [hWK]
    exact hu1
  have hsortW : List.Sorted (fun a b => tsOf a ≤ tsOf b) W :=
    sorted_of_map_key_eq hWK hsort1
  have hlenW : W.length = s1.length := by
    have := congrArg List.length hWK
    simpa using this
  by_cases hlen : S.length ≤ 100
  · have hs1S : s1 = S := by
      rw [hs1def]
      exact sliceLastN_eq_self hlen
    have hEnil : E = [] := by
      rw [List.eq_nil_iff_forall_not_mem]
      intro e heE
      obtain ⟨h1, h2⟩ := hE e heE
      apply h1
      rw [hs1S]
      exact ((hpermS.map tsOf).mem_iff).mpr h2
    rw [hEnil, List.append_nil, sortByTs_of_sorted hsortW]
    refine sliceLastN_eq_self ?_
    rw [hlenW, hs1S]
    exact hlen
  · push_neg at hlen
    have hlen1 : s1.length = 100 := by
      rw [hs1def, length_sliceLastN]
      omega
    have hltS : List.Pairwise (fun a b => tsOf a < tsOf b) S := sorted_lt_of_uniq hsortS huS
    have hbelow : ∀ e ∈ E, ∀ y ∈ W, tsOf e < tsOf y := by
      intro e heE y hy
      obtain ⟨h1, h2⟩ := hE e heE
      have heS : tsOf e ∈ S.map tsOf := ((hpermS.map tsOf).mem_iff).mpr h2
      obtain ⟨x, hxS, hxt⟩ := List.mem_map.mp heS
      have hsplit : S = S.take (S.length - 100) ++ s1 := by
        rw [hs1def]
        exact (List.take_append_drop _ S).symm
      have hxtake : x ∈ S.take (S.length - 100) := by
        rcases List.mem_append.mp (hsplit ▸ hxS) with h | h
        · exact h
        · exact absurd (hxt ▸ List.mem_map_of_mem tsOf h) h1
      have hyK : tsOf y ∈ s1.map tsOf := by
        rw [← hWK]
        exact List.mem_map_of_mem tsOf hy
      obtain ⟨y0, hy0, hy0t⟩ := List.mem_map.mp hyK
      have hltS' := hltS
      rw [hsplit] at hltS'
      have hxy := (List.pairwise_append.mp hltS').2.2 x hxtake y0 hy0
      rw [hxt, hy0t] at hxy
      exact hxy
    have hpermE := sortByTs_perm tsOf E
    have hsortE := sortByTs_sorted tsOf E
    have huWE : UniqTs tsOf (W ++ E) := by
      show ((W ++ E).map tsOf).Nodup
      rw [List.map_append, List.nodup_append]
      refine ⟨huW, huE, ?_⟩
      intro t ht htE
      obtain ⟨e, heE, hte⟩ := List.mem_map.mp htE
      refine (hE e heE).1 ?_
      rw [hte, ← hWK]
      exact ht
    have hsorteq : sortByTs tsOf (W ++ E) = sortByTs tsOf E ++ W := by
      refine @eq_of_perm_of_sorted_lt α tsOf _ _ ?_ ?_ ?_
      · exact ((sortByTs_perm tsOf _).trans List.perm_append_comm).trans
          (hpermE.append_right W).symm
      · exact sorted_lt_of_uniq (sortByTs_sorted tsOf _)
          (uniq_of_perm (sortByTs_perm tsOf _).symm huWE)
      · rw [List.pairwise_append]
        refine ⟨sorted_lt_of_uniq hsortE (uniq_of_perm hpermE.symm huE),
          sorted_lt_of_uniq hsortW huW, ?_⟩
        intro a ha y hy
        exact hbelow a (hpermE.subset ha) y hy
    rw [hsorteq]
    exact sliceLastN_append_right (by rw [hlenW]; exact hlen1)

theorem ingestBatchCore_frame (tsOf : α → Int) (prev batch : List α) (j : Nat)
    (hj : j < batch.length) (c' : α) (hu : UniqTs tsOf prev) (hub : UniqTs tsOf batch)
    (hts : tsOf c' = tsOf (batch.get ⟨j, hj⟩)) :
    ingestBatchCore tsOf (ingestBatchCore tsOf prev batch) (batch.set j c') =
      (ingestBatchCore tsOf prev batch).map
        (fun x => if tsOf x = tsOf (batch.get ⟨j, hj⟩) then c' else x) := by
  have hcore : ∀ (p b : List α), ingestBatchCore tsOf p b =
      sliceLastN 100 (sortByTs tsOf (b.foldl (replaceOrAppend tsOf) p)) := by
    intro p b
    unfold ingestBatchCore
    rw [foldl_mergeRecord_eq]
  rw [hcore prev batch, hcore _ (batch.set j c')]
  set M := batch.foldl (replaceOrAppend tsOf) prev with hMdef
  set S := sortByTs tsOf M with hSdef
  set s1 := sliceLastN 100 S with hs1def
  have hpermS : S.Perm M := sortByTs_perm tsOf M
  have huM : UniqTs tsOf M := uniq_foldl_replaceOrAppend batch hu
  have huS : UniqTs tsOf S := uniq_of_perm hpermS.symm huM
  have hu1 : UniqTs tsOf s1 := uniq_sliceLastN 100 huS
  have hmap' : s1.map (lastD tsOf (batch.set j c')) =
      s1.map (fun x => if tsOf x = tsOf (batch.get ⟨j, hj⟩) then c' else x) := by
    refine List.map_congr_left ?_
    intro x hx
    unfold lastD
    rw [lastWithTs_set batch j hj c' hub hts (tsOf x)]
    by_cases hxj : tsOf x = tsOf (batch.get ⟨j, hj⟩)
    · rw [if_pos hxj, if_pos hxj]
      rfl
    · rw [if_neg hxj, if_neg hxj]
      by_cases hxb : tsOf x ∈ batch.map tsOf
      · have hxM : x ∈ M := hpermS.subset (sliceLastN_subset 100 S hx)
        rw [merged_mem_lastWithTs hu hxM hxb]
        rfl
      · rw [(lastWithTs_eq_none_iff tsOf (tsOf x) batch).mpr hxb]
        rfl
  have hchar2 : (batch.set j c').foldl (replaceOrAppend tsOf) s1 =
      s1.map (fun x => if tsOf x = tsOf (batch.get ⟨j, hj⟩) then c' else x) ++
        newRecords tsOf (s1.map tsOf) (batch.set j c') := by
    rw [foldl_replaceOrAppend_char tsOf _ s1 hu1, hmap']
  rw [hchar2]
  refine slice_sort_of_extras tsOf M _ _ huM ?_ (newRecords_uniq tsOf _ _) ?_
  · rw [List.map_map]
    refine List.map_congr_left ?_
    intro x hx
    simp only [Function.comp_apply]
    by_cases hxj : tsOf x = tsOf (batch.get ⟨j, hj⟩)
    · rw [if_pos hxj]
      exact hts.trans hxj.symm
    · rw [if_neg hxj]
  · intro e heE
    obtain ⟨h1, h2⟩ := newRecords_mem tsOf _ _ e heE
    have heb : e ∈ batch.set j c' := lastWithTs_mem h2
    have hK : tsOf e ∈ (batch.set j c').map tsOf := List.mem_map_of_mem tsOf heb
    rw [map_ts_set batch j hj c' hts] at hK
    obtain ⟨b, hb, hbt⟩ := List.mem_map.mp hK
    exact ⟨h1, hbt ▸ mem_K_foldl_of_mem_batch prev hb⟩

/-- C8: replace-by-key is frame-preserving — for a series state and a batch
with pairwise-distinct bucket starts, re-ingesting the batch with exactly one
record's `close` changed rewrites the resulting series only at that record's
bucket start: the series equals the first result with the entry at that
bucket replaced by the revised record, every other entry (and the length and
order) unchanged.  The distinct-bucket-start hypotheses are the reachable
series invariant (`run_gr_uniq`) and the well-formedness of a candle batch. -/
theorem claim_C8_merger_frame (prev batch : List Candle) (j : Nat)
    (hj : j < batch.length) (newClose : Rat) (hu : UniqTs Candle.ts prev)
    (hub : UniqTs Candle.ts batch) :
    ingestGR (ingestGR prev batch)
        (batch.set j { batch.get ⟨j, hj⟩ with close := newClose }) =
      (ingestGR prev batch).map
        (fun x => if x.ts = (batch.get ⟨j, hj⟩).ts then
          { batch.get ⟨j, hj⟩ with close := newClose } else x) := by
  have hbne : ¬ batch.isEmpty = true := by
    cases batch with
    | nil => simp at hj
    | cons x xs => simp
  have hbne' : ¬ (batch.set j { batch.get ⟨j, hj⟩ with close := newClose }).isEmpty = true := by
    cases batch with
    | nil => simp at hj
    | cons x xs =>
        cases j with
        | zero => simp [List.set_cons_zero]
        | succ k => simp [List.set_cons_succ]
  have h2 : ∀ p : List Candle, ingestGR p batch = ingestBatchCore Candle.ts p batch := by
    intro p
    unfold ingestGR
    rw [if_neg hbne]
  have h3 : ∀ p : List Candle,
      ingestGR p (batch.set j { batch.get ⟨j, hj⟩ with close := newClose }) =
        ingestBatchCore Candle.ts p
          (batch.set j { batch.get ⟨j, hj⟩ with close := newClose }) := by
    intro p
    unfold ingestGR
    rw [if_neg hbne']
  rw [h2 prev, h3]
  exact ingestBatchCore_frame Candle.ts prev batch j hj _ hu hub rfl

/-- Witness for C8: revising the close of the second batch record rewrites
only the bucket-60000 entry of the merged series. -/
theorem claim_C8_witness :
    UniqTs Candle.ts [(⟨0, 1, 1, 1, 1, 1⟩ : Candle)] ∧
    UniqTs Candle.ts [(⟨0, 2, 2, 2, 2, 2⟩ : Candle), ⟨60000, 3, 3, 3, 3, 3⟩] ∧
    ingestGR (ingestGR [⟨0, 1, 1, 1, 1, 1⟩] [⟨0, 2, 2, 2, 2, 2⟩, ⟨60000, 3, 3, 3, 3, 3⟩])
        ([(⟨0, 2, 2, 2, 2, 2⟩ : Candle), ⟨60000, 3, 3, 3, 3, 3⟩].set 1
          { [(⟨0, 2, 2, 2, 2, 2⟩ : Candle), ⟨60000, 3, 3, 3, 3, 3⟩].get ⟨1, by decide⟩ with
              close := 9 }) =
      (ingestGR [⟨0, 1, 1, 1, 1, 1⟩] [⟨0, 2, 2, 2, 2, 2⟩, ⟨60000, 3, 3, 3, 3, 3⟩]).map
        (fun x => if x.ts =
            ([(⟨0, 2, 2, 2, 2, 2⟩ : Candle), ⟨60000, 3, 3, 3, 3, 3⟩].get ⟨1, by decide⟩).ts
          then { [(⟨0, 2, 2, 2, 2, 2⟩ : Candle), ⟨60000, 3, 3, 3, 3, 3⟩].get ⟨1, by decide⟩ with
              close := 9 } else x) :=
  ⟨by unfold UniqTs; decide, by unfold UniqTs; decide,
    claim_C8_merger_frame [⟨0, 1, 1, 1, 1, 1⟩] [⟨0, 2, 2, 2, 2, 2⟩, ⟨60000, 3, 3, 3, 3, 3⟩]
      1 (by decide) 9 (by unfold UniqTs; decide) (by unfold UniqTs; decide)⟩

end CandleRecon
